import Mathlib

/-!
Shallow embedding of the trend-detection and pattern-mining engine of the
DWM_PROJECT repository (a React/TypeScript social-media dashboard).

Modelling conventions:
- a Post is the parsed CSV record; timestamps are the integer millisecond
  values that new Date(post.timestamp).getTime() produces, so the Date
  parsing boundary stays outside the engine, exactly as the spec scopes it;
- JavaScript Map and Set containers are insertion-ordered association
  lists, matching their iteration order semantics;
- JavaScript number arithmetic on the small integer inputs involved is
  exact, and is modelled with Int / Nat / Rat;
- JavaScript string operations are modelled on the character lists that
  underlie Lean strings, restricted to the ASCII behaviour the data uses.
-/

namespace DWM

/-- JavaScript Math.round: round half toward positive infinity. -/
def jsRound (q : ℚ) : Int := ⌊q + 1/2⌋

/-- JavaScript Math.sign on a rational: -1, 0 or 1. -/
def jsSign (q : ℚ) : Int := if 0 < q then 1 else if q < 0 then -1 else 0

/-- Lexicographic code-point order on character lists; this is JavaScript
string comparison on the basic-plane fragment the data uses. -/
def chLt : List Char → List Char → Bool
  | [], [] => false
  | [], _ :: _ => true
  | _ :: _, [] => false
  | a :: as, b :: bs => if a < b then true else if b < a then false else chLt as bs

/-- Strict string comparison, as the JavaScript relational operator on strings. -/
def strLtB (a b : String) : Bool := chLt a.data b.data

/-- Non-strict string comparison: a is lexicographically at most b. -/
def strLeB (a b : String) : Bool := !(strLtB b a)

/-- Lookup in an insertion-ordered association list (JavaScript Map.get):
the value at the first entry with the key. -/
def mapGet [BEq κ] (m : List (κ × α)) (k : κ) : Option α :=
  match m with
  | [] => none
  | p :: ps => if p.1 == k then some p.2 else mapGet ps k

/-- JavaScript Map.set: update the entry in place when the key exists, else
append at the end.  Keys are unique in every map the engine builds, so
replacing the first occurrence is replacing the only one. -/
def mapSet [BEq κ] (m : List (κ × α)) (k : κ) (v : α) : List (κ × α) :=
  match m with
  | [] => [(k, v)]
  | p :: ps => if p.1 == k then (k, v) :: ps else p :: mapSet ps k v

/-- JavaScript Set.add on an insertion-ordered list. -/
def setAdd [BEq α] (s : List α) (x : α) : List α :=
  if s.contains x then s else s ++ [x]

/-- Add every element of xs to the insertion-ordered set s. -/
def setAddAll [BEq α] (s : List α) (xs : List α) : List α := xs.foldl setAdd s

/-- Insert x after every leading element y with le y x: the stable insertion
step used to model JavaScript's stable Array.sort. -/
def insertLe (le : α → α → Bool) (x : α) : List α → List α
  | [] => [x]
  | y :: ys => if le y x then y :: insertLe le x ys else x :: y :: ys

/-- Stable insertion sort by the relation le, with le y x meaning the
comparator keeps y before x (comparator result at most zero). -/
def jsSortBy (le : α → α → Bool) (l : List α) : List α :=
  l.foldl (fun acc x => insertLe le x acc) []

/-- JavaScript String.prototype.trim on the whitespace the data uses. -/
def jsTrim (s : String) : String :=
  ⟨((s.data.dropWhile Char.isWhitespace).reverse.dropWhile Char.isWhitespace).reverse⟩

/-- JavaScript String.prototype.toLowerCase on the ASCII fragment. -/
def jsToLower (s : String) : String := ⟨s.data.map Char.toLower⟩

/-- Remove the first occurrence of a character, as the JavaScript
String.prototype.replace with a plain one-character string pattern. -/
def chRemoveFirst (t : Char) : List Char → List Char
  | [] => []
  | c :: cs => if c == t then cs else c :: chRemoveFirst t cs

/-- Strip one leading occurrence of a character, as the JavaScript regex
replace anchored at the string start. -/
def stripLead (t : Char) (s : String) : String :=
  match s.data with
  | [] => s
  | c :: cs => if c == t then ⟨cs⟩ else s

/-- Split a character list at every occurrence of the separator; mirrors the
JavaScript String.prototype.split with a one-character separator. -/
def chSplit (sep : Char) : List Char → List (List Char)
  | [] => [[]]
  | c :: cs =>
    if c == sep then [] :: chSplit sep cs else
    match chSplit sep cs with
    | [] => [[c]]
    | g :: gs => (c :: g) :: gs

/-- Split a string at a one-character separator (JavaScript split). -/
def strSplit (sep : Char) (s : String) : List String :=
  (chSplit sep s.data).map String.mk

/-- Substring containment on character lists. -/
def chIncl (pat : List Char) : List Char → Bool
  | [] => pat.isEmpty
  | c :: cs => pat.isPrefixOf (c :: cs) || chIncl pat cs

/-- JavaScript String.prototype.includes. -/
def strIncludes (hay pat : String) : Bool := chIncl pat.data hay.data

/-- Ordered pairs (earlier element, later element) of a list, as the nested
index loops for i and for j greater than i. -/
def allPairs : List α → List (α × α)
  | [] => []
  | x :: xs => xs.map (fun y => (x, y)) ++ allPairs xs

def isUpperAZ (c : Char) : Bool := 'A' ≤ c && c ≤ 'Z'

def isLowerAZ (c : Char) : Bool := 'a' ≤ c && c ≤ 'z'

def isDigit09 (c : Char) : Bool := '0' ≤ c && c ≤ '9'

/-- JavaScript regex word character, for the word-boundary assertion. -/
def isWordCh (c : Char) : Bool := isUpperAZ c || isLowerAZ c || isDigit09 c || c == '_'

/-- All matches of the capitalized-word regex of extractKeywords: an
uppercase letter followed by one or more lowercase letters, delimited by word
boundaries, collected left to right without overlap.  prevWord records
whether the character before the current position is a word character. -/
def capWords (prevWord : Bool) : List Char → List String
  | [] => []
  | c :: cs =>
    if prevWord = false && isUpperAZ c then
      let run := cs.takeWhile isLowerAZ
      if run.length > 0 && !(isWordCh ((cs.drop run.length).headD ' ')) then
        String.mk (c :: run) :: capWords true (cs.drop run.length)
      else capWords (isWordCh c) cs
    else capWords (isWordCh c) cs
termination_by l => l.length
decreasing_by
  all_goals simp_wf
  all_goals omega

/-- One week in milliseconds. -/
def weekMs : Int := 7 * 24 * 60 * 60 * 1000

/-- Week index of a timestamp: floor division, as Math.floor over division. -/
def weekOf (ts : Int) : Int := Int.fdiv ts weekMs

/-- Post record as parsed from the CSV (timestamp already in milliseconds). -/
structure Post where
  post_id : String
  platform : String
  user : String
  content : String
  hashtags : String
  topic : String
  likes : Nat
  shares : Nat
  comments : Nat
  sentiment : String
  timestamp : Int
  region : String
deriving Repr, DecidableEq, Inhabited

/-- calculateEngagement in src/unnamed/part_000: the weighted engagement
likes + 2 * shares + 3 * comments. -/
def calculateEngagement (p : Post) : Nat := p.likes + p.shares * 2 + p.comments * 3

/-- Raw engagement likes + shares + comments, the sum every aggregator call
site computes for threshold filtering. -/
def rawEngagement (p : Post) : Nat := p.likes + p.shares + p.comments

/-- First n characters of a string (String.prototype.substring from 0). -/
def strTake (n : Nat) (s : String) : String := ⟨s.data.take n⟩

/-- extractHashtags in src/unnamed/part_000: split on commas, trim each part,
remove the first "#" occurrence, keep nonempty results; the empty hashtag
string is falsy and yields no tags. -/
def extractHashtags (hashtagStr : String) : List String :=
  if hashtagStr = "" then []
  else ((strSplit ',' hashtagStr).map
    (fun h => (⟨chRemoveFirst '#' (jsTrim h).data⟩ : String))).filter
    (fun h => h.length > 0)

/-- extractKeywords in src/unnamed/part_000: the capitalized-word regex
matches of the content, first two only; empty content is falsy and yields
no keywords. -/
def extractKeywords (content : String) : List String :=
  if content = "" then [] else (capWords false content.data).take 2

/-- Default JavaScript Array.sort on strings: ascending code-point order. -/
def jsSortStr (l : List String) : List String := jsSortBy strLeB l

/-- Accumulator entry of the itemPairs map in mineAssociationRules. -/
structure PairData where
  count : Nat
  posts : List Post
  topics : List String
deriving Repr, DecidableEq, Inhabited

/-- Example post attached to an association rule. -/
structure RuleExample where
  post_id : String
  content : String
  engagement_score : Nat
deriving Repr, DecidableEq, Inhabited

/-- AssociationRule output record of mineAssociationRules. -/
structure AssociationRule where
  rule : String
  antecedent : List String
  consequent : List String
  trend_strength : ℚ
  popularity_score : Int
  occurrence_count : Nat
  growth_rate : Int
  engagement_impact : Int
  platforms : List String
  trend_direction : String
  examples : List RuleExample
deriving Repr, DecidableEq, Inhabited

/-- Item set of one post for association mining: the topic, up to two
hashtags and up to two capitalized-word keywords, deduplicated in insertion
order (a JavaScript Set). -/
def assocItems (p : Post) : List String :=
  setAddAll (setAdd [] p.topic)
    ((extractHashtags p.hashtags).take 2 ++ extractKeywords p.content)

/-- Join a string list with the pipe separator (Array.prototype.join). -/
def joinPipe : List String → String
  | [] => ""
  | [x] => x
  | x :: y :: xs => x ++ "|" ++ joinPipe (y :: xs)

/-- Counter key of an unordered item pair: the two items sorted by the
default string order and joined with the pipe separator. -/
def pairKey (a b : String) : String :=
  joinPipe (jsSortStr [a, b])

/-- One post's contribution to the itemPairs counters of
mineAssociationRules: posts without a topic are skipped; every ordered pair
of the item set bumps its counter, records the topic, and stores the post
as an example while fewer than five are stored. -/
def assocPairStep (m : List (String × PairData)) (post : Post) :
    List (String × PairData) :=
  if post.topic = "" then m else
  (allPairs (assocItems post)).foldl (fun m ab =>
    let key := pairKey ab.1 ab.2
    let pd := (mapGet m key).getD ⟨0, [], []⟩
    mapSet m key
      ⟨pd.count + 1,
       if pd.posts.length < 5 then pd.posts ++ [post] else pd.posts,
       setAdd pd.topics post.topic⟩) m

/-- The full itemPairs map of mineAssociationRules. -/
def assocPairs (data : List Post) : List (String × PairData) :=
  data.foldl assocPairStep []

/-- Trend direction label from the growth rate (mineAssociationRules). -/
def trendDirection (growthRate : Int) : String :=
  if growthRate > 50 then "🚀 Rising Fast"
  else if growthRate > 15 then "📈 Growing"
  else if growthRate < -50 then "⬇️ Fading"
  else if growthRate < -15 then "📉 Declining"
  else "➡️ Stable"

/-- Week-bucketed post counts of the stored example posts, in insertion
order (the timeGroups map). -/
def weekGroups (sorted : List Post) : List (Int × Nat) :=
  sorted.foldl (fun m p =>
    let w := weekOf p.timestamp
    mapSet m w ((mapGet m w).getD 0 + 1)) []

/-- Growth rate of one qualifying pair from its time-sorted example posts;
rnd is the value Math.random would return if the sparse-data fallback runs,
and the Bool records whether that fallback consumed it. -/
def assocGrowthRate (sorted : List Post) (rnd : ℚ) : Int × Bool :=
  if sorted.length ≥ 2 then
    let groups := weekGroups sorted
    let weeks := jsSortBy (fun a b => a ≤ b) (groups.map (fun g => g.1))
    if weeks.length ≥ 2 then
      let firstWeekCount : Nat := (mapGet groups (weeks.headD 0)).getD 0
      let lastWeekCount : Nat := (mapGet groups (weeks.getLastD 0)).getD 0
      let middleWeekCount : Nat := (mapGet groups (weeks.getD (weeks.length / 2) 0)).getD 0
      if firstWeekCount > 0 then
        let rawGrowth : ℚ := ((lastWeekCount : ℚ) - (firstWeekCount : ℚ)) / (firstWeekCount : ℚ) * 100
        if rawGrowth > 0 then
          let g := jsRound (min 100 (50 + rawGrowth / 4))
          (if middleWeekCount > firstWeekCount && lastWeekCount > middleWeekCount
           then min 100 (g + 15) else g, false)
        else (jsRound (max (-50) (rawGrowth / 2)), false)
      else if lastWeekCount > 0 then (min 75 (30 + (lastWeekCount : Int) * 5), false)
      else (0, false)
    else
      let baseGrowth : ℚ := 10 + rnd * 20
      (jsRound (if sorted.length > 5 then baseGrowth else baseGrowth * (1/2)), true)
  else (jsRound (rnd * 15), true)

/-- Contextual post count of an item pair: posts referencing either item via
lower-cased content, topic substring, or an exact hashtag match. -/
def contextualCount (data : List Post) (item1 item2 : String) : Nat :=
  (data.filter (fun p =>
    (p.content != "" && strIncludes (jsToLower p.content) (jsToLower item1)) ||
    (p.content != "" && strIncludes (jsToLower p.content) (jsToLower item2)) ||
    (p.topic != "" && strIncludes p.topic item1) ||
    (p.topic != "" && strIncludes p.topic item2) ||
    (extractHashtags p.hashtags).any (fun h => h == item1 || h == item2))).length

/-- Build the AssociationRule of one qualifying pair; rnd is the Math.random
value for the sparse fallback, the Bool reports whether it was consumed. -/
def buildRule (data : List Post) (key : String) (pd : PairData) (rnd : ℚ) :
    AssociationRule × Bool :=
  let parts := strSplit '|' key
  let item1 := parts.getD 0 ""
  let item2 := parts.getD 1 ""
  let contextualPosts := contextualCount data item1 item2
  let popularityScore : Int :=
    if contextualPosts > 0 then
      min 85 (jsRound ((pd.count : ℚ) / (contextualPosts : ℚ) * 100))
    else jsRound ((pd.count : ℚ) / (data.length : ℚ) * 100 * 15)
  let sorted := jsSortBy (fun a b => a.timestamp ≤ b.timestamp) pd.posts
  let gr := assocGrowthRate sorted rnd
  let platformCounts := sorted.foldl
    (fun m p => mapSet m p.platform ((mapGet m p.platform).getD 0 + 1))
    ([] : List (String × Nat))
  let platforms := ((jsSortBy (fun a b => b.2 ≤ a.2) platformCounts).take 3).map
    (fun e => e.1)
  (⟨"When discussing " ++ item1 ++ ", users often mention " ++ item2,
    [item1], [item2],
    (pd.count : ℚ) / (data.length : ℚ),
    popularityScore, pd.count, gr.1,
    jsRound (((sorted.map calculateEngagement).sum : ℚ) / (sorted.length : ℚ)),
    platforms, trendDirection gr.1,
    (sorted.take 2).map (fun p =>
      ⟨p.post_id, strTake 120 p.content ++ "...", calculateEngagement p⟩)⟩,
   gr.2)

/-- Process one itemPairs entry: pairs below eight occurrences are dropped,
otherwise the rule is built (threading the index into the random stream) and
pushed onto its primary topic's group. -/
def assocGroupStep (data : List Post) (rand : Nat → ℚ)
    (acc : List (String × List AssociationRule) × Nat) (kv : String × PairData) :
    List (String × List AssociationRule) × Nat :=
  if kv.2.count < 8 then acc else
  let rb := buildRule data kv.1 kv.2 (rand acc.2)
  let primaryTopic := kv.2.topics.headD ""
  (mapSet acc.1 primaryTopic ((mapGet acc.1 primaryTopic).getD [] ++ [rb.1]),
   if rb.2 then acc.2 + 1 else acc.2)

/-- Descending occurrence-count comparator for rules. -/
def ruleCountDesc (a b : AssociationRule) : Bool :=
  b.occurrence_count ≤ a.occurrence_count

/-- mineAssociationRules in src/unnamed/part_000, with the stream of
Math.random values passed explicitly.  Map keys are unique, so the
processedTopics guard of the first diversity pass always fires and the pass
is taking each topic's top rule after the in-place sort. -/
def mineAssociationRules (rand : Nat → ℚ) (data : List Post) :
    List AssociationRule :=
  let byTopic := ((assocPairs data).foldl (assocGroupStep data rand) ([], 0)).1
  let sortedByTopic := byTopic.map (fun kv => (kv.1, jsSortBy ruleCountDesc kv.2))
  let diverseRules := sortedByTopic.foldl (fun acc kv => acc ++ kv.2.take 1) []
  let allRules := jsSortBy ruleCountDesc
    (sortedByTopic.foldl (fun acc kv => acc ++ kv.2) [])
  (allRules.foldl (fun dr r =>
    if dr.length < 50 && !(dr.any (fun r2 => r2.rule == r.rule))
    then dr ++ [r] else dr) diverseRules).take 30

/-- FrequentItemset output record of mineFrequentItemsets. -/
structure FrequentItemset where
  items : List String
  trend_strength : ℚ
  popularity_score : Int
  occurrence_count : Nat
  trend_direction : String
deriving Repr, DecidableEq, Inhabited

/-- Accumulator entry of the itemsetCounts map. -/
structure ItemsetData where
  count : Nat
  topics : List String
deriving Repr, DecidableEq, Inhabited

/-- One post's contribution to itemsetCounts in mineFrequentItemsets: the
topic plus up to two hashtags, sorted and joined; sets below two items are
skipped. -/
def itemsetStep (m : List (String × ItemsetData)) (post : Post) :
    List (String × ItemsetData) :=
  if post.topic = "" then m else
  let itemArray := jsSortStr
    (setAddAll (setAdd [] post.topic) ((extractHashtags post.hashtags).take 2))
  if itemArray.length ≥ 2 then
    let key := joinPipe itemArray
    let d := (mapGet m key).getD ⟨0, []⟩
    mapSet m key ⟨d.count + 1, setAdd d.topics post.topic⟩
  else m

/-- Descending occurrence-count comparator for itemsets. -/
def isetCountDesc (a b : FrequentItemset) : Bool :=
  b.occurrence_count ≤ a.occurrence_count

/-- Process one itemsetCounts entry: sets below eight occurrences are
dropped, otherwise the FrequentItemset record is pushed onto its primary
topic's group. -/
def itemsetGroupStep (data : List Post)
    (acc : List (String × List FrequentItemset)) (kv : String × ItemsetData) :
    List (String × List FrequentItemset) :=
  if kv.2.count < 8 then acc else
  let s : FrequentItemset :=
    ⟨strSplit '|' kv.1,
     (kv.2.count : ℚ) / (data.length : ℚ),
     min 80 (jsRound ((kv.2.count : ℚ) / (data.length : ℚ) * 100 * 12)),
     kv.2.count, "➡️ Stable"⟩
  let primaryTopic := kv.2.topics.headD ""
  mapSet acc primaryTopic ((mapGet acc primaryTopic).getD [] ++ [s])

/-- mineFrequentItemsets in src/unnamed/part_000. -/
def mineFrequentItemsets (data : List Post) : List FrequentItemset :=
  let counts := data.foldl itemsetStep []
  let byTopic := counts.foldl (itemsetGroupStep data) []
  let diverse := byTopic.foldl
    (fun acc kv => acc ++ (jsSortBy isetCountDesc kv.2).take 2) []
  (jsSortBy isetCountDesc diverse).take 24

/-- SequentialPattern output record of mineSequentialPatterns. -/
structure SequentialPattern where
  sequence : List String
  pattern_strength : Int
  occurrence_count : Nat
  avg_duration : String
deriving Repr, DecidableEq, Inhabited

/-- Entry of a user's posting sequence: topic and timestamp. -/
structure SeqEntry where
  topic : String
  timestamp : Int
deriving Repr, DecidableEq, Inhabited

/-- The userSequences map: posts grouped by user in input order, skipping
posts without a user or topic. -/
def userSequencesOf (data : List Post) : List (String × List SeqEntry) :=
  data.foldl (fun m post =>
    if post.user = "" || post.topic = "" then m else
    mapSet m post.user
      ((mapGet m post.user).getD [] ++ [⟨post.topic, post.timestamp⟩])) []

/-- Directed transitions of one user's time-sorted sequence: every
consecutive pair with differing topics, with the elapsed milliseconds. -/
def seqTransitions (entries : List SeqEntry) : List (String × Int) :=
  let sorted := jsSortBy (fun a b => a.timestamp ≤ b.timestamp) entries
  (sorted.zip sorted.tail).foldl (fun acc ab =>
    if ab.1.topic != ab.2.topic then
      acc ++ [(ab.1.topic ++ "|" ++ ab.2.topic, ab.2.timestamp - ab.1.timestamp)]
    else acc) []

/-- The sequenceCounts and sequenceTimings maps of mineSequentialPatterns
(timings converted to days). -/
def sequenceCountsOf (data : List Post) :
    List (String × Nat) × List (String × List ℚ) :=
  (userSequencesOf data).foldl (fun acc kv =>
    (seqTransitions kv.2).foldl (fun acc2 tr =>
      (mapSet acc2.1 tr.1 ((mapGet acc2.1 tr.1).getD 0 + 1),
       mapSet acc2.2 tr.1
         ((mapGet acc2.2 tr.1).getD [] ++ [(tr.2 : ℚ) / (1000 * 60 * 60 * 24)])))
      acc) ([], [])

/-- Average-duration band from the timing samples of one transition. -/
def avgDurationLabel (timings : List ℚ) : String :=
  if timings.length > 0 then
    let avgDays := timings.sum / (timings.length : ℚ)
    if avgDays < 1 then "< 1 day"
    else if avgDays < 3 then "1-3 days"
    else if avgDays < 7 then "3-7 days"
    else if avgDays < 14 then "1-2 weeks"
    else "2+ weeks"
  else "1-7 days"

/-- Descending occurrence-count comparator for sequential patterns. -/
def seqCountDesc (a b : SequentialPattern) : Bool :=
  b.occurrence_count ≤ a.occurrence_count

/-- Process one sequenceCounts entry: transitions below three occurrences
are dropped, otherwise the SequentialPattern record is appended. -/
def seqPatternStep (totalUsers : Nat) (timings : List (String × List ℚ))
    (acc : List SequentialPattern) (kv : String × Nat) :
    List SequentialPattern :=
  if kv.2 < 3 then acc else
  let parts := strSplit '|' kv.1
  let baseStrength : ℚ := (kv.2 : ℚ) / (max totalUsers 20 : ℚ) * 100
  acc ++ [⟨[parts.getD 0 "", parts.getD 1 ""],
           min 85 (jsRound (20 + baseStrength * 15)), kv.2,
           avgDurationLabel ((mapGet timings kv.1).getD [])⟩]

/-- mineSequentialPatterns in src/unnamed/part_000. -/
def mineSequentialPatterns (data : List Post) : List SequentialPattern :=
  let us := userSequencesOf data
  let ct := sequenceCountsOf data
  let totalUsers := us.length
  let patterns := ct.1.foldl (seqPatternStep totalUsers ct.2) []
  (jsSortBy seqCountDesc patterns).take 15

/-- Hashtag-to-tag normalization shared by the dashboard extractors: split
on commas, trim, lower-case, strip one leading hash mark. -/
def parseTags (hashtags : String) : List String :=
  (strSplit ',' hashtags).map (fun t => stripLead '#' (jsToLower (jsTrim t)))

/-- Trend accumulator of processTemporalPatterns in TrendAnalysis.tsx. -/
structure TrendAccum where
  keyword : String
  posts : List Post
  totalEngagement : Nat
  timeSeries : List (Int × Nat)
deriving Repr, DecidableEq, Inhabited

/-- Content keyword vocabulary of processTemporalPatterns. -/
def temporalKeywords : List String :=
  ["diwali", "gemini", "llama", "gpt", "mistral", "chatgpt", "ai",
   "crypto", "bitcoin", "stocks", "isro", "chandrayaan", "space",
   "cricket", "kohli", "bollywood", "climate", "elections", "politics",
   "music", "bts", "taylor", "gaming", "xbox", "ps5", "ott", "netflix"]

/-- Inner body shared by both extraction paths of processTemporalPatterns:
make sure the key exists, then add the post, its engagement and its week
bucket unless a post with the same id is already a member. -/
def temporalAdd (m : List (String × TrendAccum)) (key : String) (post : Post)
    (e : Nat) (w : Int) : List (String × TrendAccum) :=
  let m := if (mapGet m key).isNone then mapSet m key ⟨key, [], 0, []⟩ else m
  let t := (mapGet m key).getD ⟨key, [], 0, []⟩
  if t.posts.any (fun p => p.post_id == post.post_id) then m
  else mapSet m key ⟨key, t.posts ++ [post], t.totalEngagement + e,
    mapSet t.timeSeries w ((mapGet t.timeSeries w).getD 0 + e)⟩

/-- One post's contribution to the trendMap of processTemporalPatterns:
below the engagement threshold of 20 nothing happens; otherwise every
qualifying hashtag and every content keyword receives the post. -/
def processTemporalPost (m : List (String × TrendAccum)) (post : Post) :
    List (String × TrendAccum) :=
  let e := rawEngagement post
  if e < 20 then m else
  let w := weekOf post.timestamp
  let m :=
    if post.hashtags = "" then m else
    (parseTags post.hashtags).foldl (fun m tag =>
      if tag != "" && tag.length > 2 then temporalAdd m tag post e w else m) m
  temporalKeywords.foldl (fun m kw =>
    if strIncludes (jsToLower post.content) kw then temporalAdd m kw post e w
    else m) m

/-- The full trendMap of processTemporalPatterns. -/
def temporalTrendMap (data : List Post) : List (String × TrendAccum) :=
  data.foldl processTemporalPost []

/-- TemporalPattern output record of processTemporalPatterns. -/
structure TemporalPattern where
  topic : String
  pattern : String
  weeklyGrowth : List Int
  velocity : Int
  peakTime : String
  totalEngagement : Nat
deriving Repr, DecidableEq, Inhabited

/-- Per-step growth rates from the ordered week values, clamped to the
interval from -200 to 200 (lines 225-233 of TrendAnalysis.tsx). -/
def growthRatesOf (values : List ℚ) : List ℚ :=
  (values.zip values.tail).map (fun pv =>
    if pv.1 > 0 then max (-200) (min 200 ((pv.2 - pv.1) / pv.1 * 100))
    else if pv.2 > 0 then 100 else 0)

/-- Mean of a rational list (sum divided by length). -/
def avgOf (l : List ℚ) : ℚ := l.sum / (l.length : ℚ)

/-- Mean of the last three rates, or of all of them when fewer. -/
def recentGrowthOf (g : List ℚ) : ℚ :=
  let k := min 3 g.length
  (g.drop (g.length - k)).sum / (k : ℚ)

/-- Sign-change count of the cyclical test: consecutive rate pairs whose
signs differ and whose later rate exceeds 10 in magnitude. -/
def signChanges (g : List ℚ) : Nat :=
  (g.zip g.tail).foldl (fun acc pv =>
    if jsSign pv.2 ≠ jsSign pv.1 ∧ 10 < |pv.2| then acc + 1 else acc) 0

/-- Classification of lines 237-257 of TrendAnalysis.tsx, written as the
mutable pattern variable resolves. -/
def classifyPattern (g : List ℚ) : String :=
  let avgGrowth := avgOf g
  let recentGrowth := recentGrowthOf g
  if recentGrowth > 30 ∧ avgGrowth > 15 then "emerging"
  else if recentGrowth < -20 ∧ avgGrowth < -10 then "declining"
  else if |avgGrowth| < 15 then "sustained"
  else if (signChanges g : ℚ) ≥ max 2 ((g.length : ℚ) / 3) then "cyclical"
  else "sustained"

/-- Pattern record of one trend accumulator, none when it is discarded for
having fewer than two members, fewer than two week buckets, or no rates. -/
def temporalPatternOf (t : TrendAccum) : Option TemporalPattern :=
  if t.posts.length < 2 then none else
  let weeks := jsSortBy (fun a b => a ≤ b) (t.timeSeries.map (fun kv => kv.1))
  if weeks.length < 2 then none else
  let values := weeks.map (fun w => ((mapGet t.timeSeries w).getD 0 : ℚ))
  let g := growthRatesOf values
  if g.length = 0 then none else
  let pat := classifyPattern g
  some ⟨t.keyword, pat, g.map jsRound,
        jsRound (max (-100) (min 100 (recentGrowthOf g))),
        if pat = "emerging" then "Expected in 2-4 weeks"
        else if pat = "declining" then "Peaked recently"
        else "Currently stable",
        t.totalEngagement⟩

/-- processTemporalPatterns in TrendAnalysis.tsx. -/
def processTemporalPatterns (data : List Post) : List TemporalPattern :=
  jsSortBy (fun a b => b.totalEngagement ≤ a.totalEngagement)
    ((temporalTrendMap data).foldl
      (fun acc kv => acc ++ (temporalPatternOf kv.2).toList) [])

/-- Trend accumulator of extractTrends in src/unnamed/part_002. -/
structure TrendAccumV2 where
  keyword : String
  posts : List Post
  totalEngagement : Nat
  topics : List String
  platforms : List String
deriving Repr, DecidableEq, Inhabited

/-- Trend output record of extractTrends in src/unnamed/part_002. -/
structure TrendV2 where
  keyword : String
  posts : List Post
  totalEngagement : Nat
  topics : List String
  platforms : List String
  avgEngagement : ℚ
deriving Repr, DecidableEq, Inhabited

/-- Content keyword vocabulary of extractTrends in src/unnamed/part_002. -/
def keywordsV2 : List String :=
  ["diwali", "gemini", "llama", "llama2", "llama-3", "gpt-5", "mistral",
   "bts", "taylor swift", "beyoncé", "arijit singh", "bad bunny",
   "crypto", "bitcoin", "stocks", "markets",
   "isro", "chandrayaan", "space",
   "worldcup", "cricket", "kohli", "babar", "smith",
   "aamir khan", "ranveer singh",
   "heatwave", "climate", "cop29", "sustainability",
   "apple", "m5", "netflix", "gaming", "xbox", "ps5",
   "elections", "politics", "vote"]

/-- Inner body of both extraction paths of extractTrends in part_002: make
sure the key exists, then push the post unconditionally — neither path
checks whether the post id is already a member. -/
def addTrendV2 (m : List (String × TrendAccumV2)) (key : String) (post : Post)
    (e : Nat) : List (String × TrendAccumV2) :=
  let m := if (mapGet m key).isNone then mapSet m key ⟨key, [], 0, [], []⟩ else m
  let t := (mapGet m key).getD ⟨key, [], 0, [], []⟩
  mapSet m key ⟨key, t.posts ++ [post], t.totalEngagement + e,
    setAdd t.topics post.topic, setAdd t.platforms post.platform⟩

/-- One post's contribution to the trendMap of extractTrends in part_002;
the engagement threshold there is 100. -/
def extractTrendsStepV2 (m : List (String × TrendAccumV2)) (post : Post) :
    List (String × TrendAccumV2) :=
  let e := rawEngagement post
  if e < 100 then m else
  let m :=
    if post.hashtags = "" then m else
    (parseTags post.hashtags).foldl (fun m tag =>
      if tag != "" && tag.length > 2 then addTrendV2 m tag post e else m) m
  keywordsV2.foldl (fun m kw =>
    if strIncludes (jsToLower post.content) kw then addTrendV2 m kw post e
    else m) m

/-- extractTrends in src/unnamed/part_002 (the frontend CSV branch): trends
with at least two stored posts, sorted by total engagement descending. -/
def extractTrendsV2 (data : List Post) : List TrendV2 :=
  if data.length = 0 then [] else
  let m := data.foldl extractTrendsStepV2 []
  ((jsSortBy (fun a b => b.totalEngagement ≤ a.totalEngagement)
    ((m.map (fun kv => kv.2)).filter (fun t => t.posts.length ≥ 2))).map
    (fun t => ⟨t.keyword, t.posts, t.totalEngagement, t.topics, t.platforms,
      (t.totalEngagement : ℚ) / (t.posts.length : ℚ)⟩))

/-- avgEngagement of line 93 in calculateTrendMetrics (src/unnamed/part_001):
the reduce accumulating likes, shares and comments of every member post,
divided by the member count; the value that feeds the engagement score. -/
def avgEngagementOf (posts : List Post) : ℚ :=
  (posts.foldl (fun s p => s + (p.likes : ℚ) + (p.shares : ℚ) + (p.comments : ℚ)) 0) /
    (posts.length : ℚ)

/-- Mean weighted engagement as the spec words it for the Trend Scorer:
mean of likes + 2 shares + 3 comments over the member posts. -/
def meanWeightedEngagement (posts : List Post) : ℚ :=
  ((posts.map calculateEngagement).sum : ℚ) / (posts.length : ℚ)

/-- Mean raw engagement, the mean of likes + shares + comments over the
member posts, written as the amended claim words it. -/
def meanRawEngagement (posts : List Post) : ℚ :=
  ((posts.map rawEngagement).sum : ℚ) / (posts.length : ℚ)

/-- Keys the Trend Aggregator extracts from one post, as the spec describes
the Item Extractor for processTemporalPatterns: the qualifying hashtags in
order, then the matching content keywords. -/
def temporalKeysOf (p : Post) : List String :=
  (if p.hashtags = "" then [] else
    (parseTags p.hashtags).filter (fun tag => tag != "" && tag.length > 2)) ++
  temporalKeywords.filter (fun kw => strIncludes (jsToLower p.content) kw)

/-- Trend accumulator state at a key, with the freshly created accumulator
when the key is absent. -/
def trendAt (m : List (String × TrendAccum)) (t : String) : TrendAccum :=
  (mapGet m t).getD ⟨t, [], 0, []⟩

/-- Classification as the claim words it: first match wins in the fixed
order, with the mean of all rates, the mean of the last min(3, n) rates, and
the count of qualifying sign changes written independently of the code. -/
def classifySpec (g : List ℚ) : String :=
  let n := g.length
  let avgGrowth := g.sum / (n : ℚ)
  let recentGrowth := ((g.reverse.take (min 3 n)).sum) / ((min 3 n : ℕ) : ℚ)
  let changes := (g.zip g.tail).countP (fun pv => jsSign pv.2 ≠ jsSign pv.1 ∧ 10 < |pv.2|)
  if recentGrowth > 30 ∧ avgGrowth > 15 then "emerging"
  else if recentGrowth < -20 ∧ avgGrowth < -10 then "declining"
  else if |avgGrowth| < 15 then "sustained"
  else if (changes : ℚ) ≥ max 2 ((n : ℚ) / 3) then "cyclical"
  else "sustained"

/-- The four ranked collections of one full mining run over a fixed input;
rand is the stream of Math.random values drawn during that run, the only
input that varies between two executions on the same post collection. -/
def fullPipeline (rand : Nat → ℚ) (data : List Post) :
    List AssociationRule × List FrequentItemset × List SequentialPattern ×
      List TemporalPattern :=
  (mineAssociationRules rand data, mineFrequentItemsets data,
   mineSequentialPatterns data, processTemporalPatterns data)

/-- Condition under which no qualifying association pair reaches the
pseudo-random fallback: at least two stored example posts spanning at least
two distinct week buckets. -/
def noFallback (data : List Post) : Prop :=
  ∀ kv ∈ assocPairs data, 8 ≤ kv.2.count →
    2 ≤ kv.2.posts.length ∧
    2 ≤ (weekGroups (jsSortBy (fun a b => a.timestamp ≤ b.timestamp) kv.2.posts)).length

/-! Auxiliary lemmas about the container and arithmetic helpers. -/

theorem mem_insertLe {le : α → α → Bool} {x y : α} : ∀ {l : List α},
    y ∈ insertLe le x l ↔ y = x ∨ y ∈ l := by
  intro l
  induction l with
  | nil => simp [insertLe]
  | cons z zs ih =>
    simp only [insertLe]
    split
    · simp only [List.mem_cons, ih]
      tauto
    · simp [List.mem_cons]

theorem mem_foldl_insertLe {le : α → α → Bool} {y : α} : ∀ {l acc : List α},
    y ∈ l.foldl (fun a x => insertLe le x a) acc ↔ y ∈ acc ∨ y ∈ l := by
  intro l
  induction l with
  | nil => simp
  | cons z zs ih =>
    intro acc
    simp only [List.foldl_cons, ih, mem_insertLe, List.mem_cons]
    tauto

theorem mem_jsSortBy {le : α → α → Bool} {y : α} {l : List α} :
    y ∈ jsSortBy le l ↔ y ∈ l := by
  simp [jsSortBy, mem_foldl_insertLe]

theorem mem_mapSet [BEq κ] {k : κ} {v : α} {kv : κ × α} :
    ∀ {m : List (κ × α)}, kv ∈ mapSet m k v → kv = (k, v) ∨ kv ∈ m := by
  intro m
  induction m with
  | nil =>
    intro h
    simp only [mapSet, List.mem_singleton] at h
    exact Or.inl h
  | cons p ps ih =>
    intro h
    simp only [mapSet] at h
    split at h
    · rcases List.mem_cons.mp h with h2 | h2
      · exact Or.inl h2
      · exact Or.inr (List.mem_cons_of_mem p h2)
    · rcases List.mem_cons.mp h with h2 | h2
      · exact Or.inr (h2 ▸ List.mem_cons_self p ps)
      · rcases ih h2 with h3 | h3
        · exact Or.inl h3
        · exact Or.inr (List.mem_cons_of_mem p h3)

theorem mapGet_mapSet_self [BEq κ] [LawfulBEq κ] :
    ∀ (m : List (κ × α)) (k : κ) (v : α), mapGet (mapSet m k v) k = some v := by
  intro m
  induction m with
  | nil => intro k v; simp [mapSet, mapGet]
  | cons p ps ih =>
    intro k v
    simp only [mapSet]
    split
    · simp [mapGet]
    case isFalse hc =>
      simp only [mapGet, hc, if_neg]
      exact ih k v

theorem mapGet_mapSet_ne [BEq κ] [LawfulBEq κ] {k t : κ} (h : t ≠ k) :
    ∀ (m : List (κ × α)) (v : α), mapGet (mapSet m k v) t = mapGet m t := by
  have hkt : (k == t) = false := beq_eq_false_iff_ne.mpr fun he => h he.symm
  intro m
  induction m with
  | nil => intro v; simp [mapSet, mapGet, hkt]
  | cons p ps ih =>
    intro v
    simp only [mapSet]
    split
    case isTrue hc =>
      have hpt : (p.1 == t) = false := by
        rw [beq_iff_eq] at hc
        rw [hc, hkt]
      simp [mapGet, hkt, hpt]
    case isFalse hc =>
      simp only [mapGet]
      split
      · rfl
      · exact ih v

theorem mapGet_some_mem [BEq κ] {k : κ} {v : α} :
    ∀ {m : List (κ × α)}, mapGet m k = some v → ∃ k2, (k2, v) ∈ m := by
  intro m
  induction m with
  | nil => intro h; simp [mapGet] at h
  | cons p ps ih =>
    intro h
    simp only [mapGet] at h
    split at h
    · exact ⟨p.1, by
        rw [show v = p.2 from (Option.some_injective _ h).symm, Prod.mk.eta]
        exact List.mem_cons_self p ps⟩
    · rcases ih h with ⟨k2, hk2⟩
      exact ⟨k2, List.mem_cons_of_mem p hk2⟩

theorem foldl_ite_filter (f : β → α → β) (c : α → Bool) :
    ∀ (l : List α) (a : β),
    l.foldl (fun acc x => if c x then f acc x else acc) a = (l.filter c).foldl f a := by
  intro l
  induction l with
  | nil => intro a; rfl
  | cons x xs ih =>
    intro a
    by_cases hc : c x = true <;> simp [List.filter, hc, ih]

theorem mem_foldl_append {f : β → List α} {y : α} : ∀ {l : List β} {acc : List α},
    y ∈ l.foldl (fun acc b => acc ++ f b) acc ↔ y ∈ acc ∨ ∃ b ∈ l, y ∈ f b := by
  intro l
  induction l with
  | nil => simp
  | cons b bs ih =>
    intro acc
    simp only [List.foldl_cons, ih, List.mem_append, List.mem_cons]
    constructor
    · rintro (⟨h | h⟩ | ⟨c, hc, hy⟩)
      · exact Or.inl h
      · exact Or.inr ⟨b, Or.inl rfl, h⟩
      · exact Or.inr ⟨c, Or.inr hc, hy⟩
    · rintro (h | ⟨c, (rfl | hc), hy⟩)
      · exact Or.inl (Or.inl h)
      · exact Or.inl (Or.inr hy)
      · exact Or.inr ⟨c, hc, hy⟩

theorem mem_foldl_condPush {p : List α → α → Bool} {y : α} :
    ∀ {l acc : List α},
    y ∈ l.foldl (fun dr r => if p dr r then dr ++ [r] else dr) acc →
      y ∈ acc ∨ y ∈ l := by
  intro l
  induction l with
  | nil => intro acc h; exact Or.inl h
  | cons r rs ih =>
    intro acc h
    simp only [List.foldl_cons] at h
    rcases ih h with h2 | h2
    · split at h2
      · rcases List.mem_append.mp h2 with h3 | h3
        · exact Or.inl h3
        · simp at h3
          exact Or.inr (h3 ▸ List.mem_cons_self r rs)
      · exact Or.inl h2
    · exact Or.inr (List.mem_cons_of_mem r h2)

theorem jsRound_le_intCast {q : ℚ} {n : Int} (h : q ≤ (n : ℚ)) : jsRound q ≤ n := by
  unfold jsRound
  have h2 : ⌊(n : ℚ) + 1/2⌋ = n := by
    rw [add_comm, Int.floor_add_int]
    norm_num
  calc ⌊q + 1/2⌋ ≤ ⌊(n : ℚ) + 1/2⌋ := Int.floor_le_floor (by linarith)
    _ = n := h2

theorem intCast_le_jsRound {q : ℚ} {n : Int} (h : (n : ℚ) ≤ q) : n ≤ jsRound q := by
  unfold jsRound
  rw [Int.le_floor]
  linarith

theorem chLt_asymm : ∀ {a b : List Char}, chLt a b = true → chLt b a = false := by
  intro a
  induction a with
  | nil =>
    intro b h
    cases b with
    | nil => simp [chLt] at h
    | cons d ds => simp [chLt]
  | cons c cs ih =>
    intro b h
    cases b with
    | nil => simp [chLt] at h
    | cons d ds =>
      simp only [chLt] at h ⊢
      by_cases hcd : c < d
      · have hdc : ¬ d < c := fun h2 => absurd hcd (asymm h2)
        simp [hdc, hcd]
      · by_cases hdc : d < c
        · simp [hcd, hdc] at h
        · simp only [if_neg hcd, if_neg hdc] at h ⊢
          exact ih h

theorem strLeB_total {a b : String} (h : strLeB a b = false) : strLeB b a = true := by
  have h2 : chLt b.data a.data = true := by
    unfold strLeB strLtB at h
    simpa using h
  unfold strLeB strLtB
  rw [chLt_asymm h2]
  rfl

theorem jsSortStr_pair (a b : String) :
    jsSortStr [a, b] = if strLeB a b then [a, b] else [b, a] := by
  by_cases h : strLeB a b = true
  · simp [jsSortStr, jsSortBy, insertLe, h]
  · simp [jsSortStr, jsSortBy, insertLe, h]

theorem sum_reverse_take (g : List ℚ) (k : Nat) :
    (g.reverse.take k).sum = (g.drop (g.length - k)).sum := by
  calc (g.reverse.take k).sum = ((g.reverse.take k).reverse).sum :=
        (List.sum_reverse _).symm
    _ = (g.rtake k).sum := by rw [← List.rtake_eq_reverse_take_reverse]
    _ = (g.drop (g.length - k)).sum := by rw [List.rtake]

theorem foldl_count_eq_countP {P : α → Prop} [DecidablePred P] :
    ∀ (l : List α) (n : Nat),
    l.foldl (fun acc x => if P x then acc + 1 else acc) n =
      n + l.countP (fun x => decide (P x)) := by
  intro l
  induction l with
  | nil => simp
  | cons x xs ih =>
    intro n
    simp only [List.foldl_cons, List.countP_cons]
    by_cases h : P x
    · simp [h, ih]
      omega
    · simp [h, ih]

/-! Claim theorems. -/

/-- Post that matches the key crypto both through its hashtag and through a
content keyword, with raw engagement 100 meeting the part_002 threshold. -/
def c1Post : Post :=
  ⟨"p1", "Twitter", "u1", "crypto is rising", "crypto", "Finance & Crypto",
   100, 0, 0, "positive", 0, "India"⟩

/-- C1: the claim states that no Trend's member post list contains the same
post id twice, even when a post matches the key through both a hashtag and a
content keyword.  extractTrends of src/unnamed/part_002 omits the member
check on both paths, so on this one-post input the returned trend crypto
stores the post twice: the code contradicts the documented invariant (the
sibling implementations deduplicate and comment the intent). -/
theorem c1_trend_member_duplicate :
    (extractTrendsV2 [c1Post]).map
        (fun t => (t.keyword, t.posts.map (fun p => p.post_id))) =
      [("crypto", ["p1", "p1"])] := by with_unfolding_all decide

/-- C3: the Temporal Classifier is the first-match cascade the claim
describes, and the three literal examples classify as stated. -/
theorem c3_classifier_cascade :
    (∀ g : List ℚ, g ≠ [] → classifyPattern g = classifySpec g) ∧
    classifyPattern [40, 35, 32] = "emerging" ∧
    classifyPattern [-30, -25, -22] = "declining" ∧
    classifyPattern [5, -3, 4] = "sustained" := by
  refine ⟨fun g _ => ?_, by with_unfolding_all decide,
    by with_unfolding_all decide, by with_unfolding_all decide⟩
  simp only [classifyPattern, classifySpec, avgOf, recentGrowthOf, signChanges,
    sum_reverse_take, foldl_count_eq_countP, Nat.zero_add]

/-- Concrete input for the C3 witness: the first example sequence. -/
theorem c3_classifier_cascade_witness :
    classifyPattern [40, 35, 32] = classifySpec [40, 35, 32] :=
  c3_classifier_cascade.1 [40, 35, 32] (by simp)

/-- Member list whose mean raw engagement (1) differs from its mean
weighted engagement (2): a single post with one share. -/
def c4Posts : List Post :=
  [⟨"q1", "Twitter", "u", "", "", "Gaming", 0, 1, 0, "positive", 0, "India"⟩]

/-- C4 counterexample: the claim says the engagement score is the base-10
log of the mean weighted engagement plus one, over five; the code computes
it from the mean raw engagement (line 93 of part_001 sums likes, shares and
comments unweighted), and at this input the two values differ. -/
theorem c4_score_not_weighted :
    Real.logb 10 ((avgEngagementOf c4Posts : ℝ) + 1) / 5 ≠
      Real.logb 10 ((meanWeightedEngagement c4Posts : ℝ) + 1) / 5 := by
  have h1 : avgEngagementOf c4Posts = 1 := by with_unfolding_all decide
  have h2 : meanWeightedEngagement c4Posts = 2 := by with_unfolding_all decide
  rw [h1, h2]
  push_cast
  have h3 : Real.logb 10 ((1 : ℝ) + 1) < Real.logb 10 ((2 : ℝ) + 1) :=
    Real.logb_lt_logb (by norm_num) (by norm_num) (by norm_num)
  intro he
  have h4 : Real.logb 10 ((1 : ℝ) + 1) = Real.logb 10 ((2 : ℝ) + 1) := by
    field_simp at he
    linarith
  linarith

theorem foldl_raw_sum : ∀ (posts : List Post) (s : ℚ),
    posts.foldl (fun s p => s + (p.likes : ℚ) + (p.shares : ℚ) + (p.comments : ℚ)) s =
      s + (((posts.map rawEngagement).sum : ℕ) : ℚ) := by
  intro posts
  induction posts with
  | nil => simp
  | cons p ps ih =>
    intro s
    simp only [List.foldl_cons, List.map_cons, List.sum_cons, ih]
    unfold rawEngagement
    push_cast
    ring

/-- C4 amended: the engagement score equals the base-10 log of the mean raw
engagement (likes + shares + comments) plus one, over five. -/
theorem c4_score_raw_mean (posts : List Post) (_h : posts ≠ []) :
    Real.logb 10 ((avgEngagementOf posts : ℝ) + 1) / 5 =
      Real.logb 10 ((meanRawEngagement posts : ℝ) + 1) / 5 := by
  have he : avgEngagementOf posts = meanRawEngagement posts := by
    unfold avgEngagementOf meanRawEngagement
    rw [foldl_raw_sum]
    simp
  rw [he]

/-- Concrete input for the C4 witness. -/
theorem c4_score_raw_mean_witness :
    Real.logb 10 ((avgEngagementOf c4Posts : ℝ) + 1) / 5 =
      Real.logb 10 ((meanRawEngagement c4Posts : ℝ) + 1) / 5 :=
  c4_score_raw_mean c4Posts (by decide)

theorem foldl_congr_id {f : β → α → β} :
    ∀ {l : List α}, (∀ x ∈ l, ∀ m, f m x = m) → ∀ m, l.foldl f m = m := by
  intro l
  induction l with
  | nil => intro _ m; rfl
  | cons x xs ih =>
    intro h m
    simp only [List.foldl_cons, h x (List.mem_cons_self x xs)]
    exact ih (fun y hy m2 => h y (List.mem_cons_of_mem x hy) m2) m

/-- One post's pair step is the identity when the post carries no hashtags
and no content keywords: its item set is the lone topic and has no pairs. -/
theorem assocPairStep_id (m : List (String × PairData)) (post : Post)
    (hh : extractHashtags post.hashtags = [])
    (hk : extractKeywords post.content = []) :
    assocPairStep m post = m := by
  unfold assocPairStep
  split
  · rfl
  · simp [assocItems, hh, hk, setAddAll, setAdd, allPairs]

/-- One post's itemset step is the identity when the post carries no
hashtags: its item array is the lone topic, below the size-two minimum. -/
theorem itemsetStep_id (m : List (String × ItemsetData)) (post : Post)
    (hh : extractHashtags post.hashtags = []) :
    itemsetStep m post = m := by
  unfold itemsetStep
  split
  · rfl
  · simp [hh, setAddAll, setAdd, jsSortStr, jsSortBy, insertLe]

/-- Eight posts sharing one topic with no hashtags, whose content Hello
still yields a capitalized-word keyword for the Association Miner. -/
def c5Posts : List Post :=
  (List.range 8).map (fun i =>
    ⟨toString i, "Twitter", "u" ++ toString i, "Hello", "", "t",
     30, 0, 0, "positive", 0, "India"⟩)

/-- C5 counterexample: a corpus where every post shares one topic and has
no hashtags, yet the Association Miner emits one rule (Hello with t),
because item sets also include capitalized-word content keywords; the
claimed zero-rule output is wrong. -/
theorem c5_counterexample :
    (∀ p ∈ c5Posts, p.topic = "t" ∧ p.hashtags = "") ∧
    (mineAssociationRules (fun _ => 0) c5Posts).length = 1 := by
  with_unfolding_all decide

/-- C5 amended: with one shared topic, no hashtags, and no capitalized-word
content keywords, both miners return empty outputs. -/
theorem c5_one_topic_no_items_empty (rand : Nat → ℚ) (data : List Post)
    (c : String)
    (_htopic : ∀ p ∈ data, p.topic = c)
    (hhash : ∀ p ∈ data, extractHashtags p.hashtags = [])
    (hkw : ∀ p ∈ data, extractKeywords p.content = []) :
    mineAssociationRules rand data = [] ∧ mineFrequentItemsets data = [] := by
  constructor
  · have hp : assocPairs data = [] := by
      unfold assocPairs
      exact foldl_congr_id
        (fun p hp m => assocPairStep_id m p (hhash p hp) (hkw p hp)) []
    unfold mineAssociationRules
    rw [hp]
    rfl
  · have hc : data.foldl itemsetStep [] = [] :=
      foldl_congr_id (fun p hp m => itemsetStep_id m p (hhash p hp)) []
    unfold mineFrequentItemsets
    rw [hc]
    rfl

/-- One quiet post for the C5 witness: shared topic, no hashtags, empty
content. -/
def c5Quiet : List Post :=
  [⟨"w1", "Twitter", "u", "", "", "t", 5, 0, 0, "positive", 0, "India"⟩]

/-- Concrete input for the C5 witness. -/
theorem c5_one_topic_no_items_empty_witness :
    mineAssociationRules (fun _ => 0) c5Quiet = [] ∧
      mineFrequentItemsets c5Quiet = [] :=
  c5_one_topic_no_items_empty (fun _ => 0) c5Quiet "t"
    (by with_unfolding_all decide) (by with_unfolding_all decide)
    (by with_unfolding_all decide)

theorem mapGet_temporalAdd_other {k t : String} (hkt : t ≠ k)
    (m : List (String × TrendAccum)) (p : Post) (e : Nat) (w : Int) :
    mapGet (temporalAdd m k p e w) t = mapGet m t := by
  simp only [temporalAdd]
  split <;> split <;> simp only [mapGet_mapSet_ne hkt]

theorem trendAt_temporalAdd_other {k t : String} (hkt : t ≠ k)
    (m : List (String × TrendAccum)) (p : Post) (e : Nat) (w : Int) :
    trendAt (temporalAdd m k p e w) t = trendAt m t := by
  unfold trendAt
  rw [mapGet_temporalAdd_other hkt]

theorem temporalAdd_of_member {k : String} (m : List (String × TrendAccum))
    (p : Post) (e : Nat) (w : Int)
    (hm : ((trendAt m k).posts.any (fun q => q.post_id == p.post_id)) = true) :
    temporalAdd m k p e w = m := by
  unfold trendAt at hm
  simp only [temporalAdd]
  rcases hc : mapGet m k with _ | v
  · rw [hc] at hm
    simp at hm
  · rw [hc] at hm
    simp only [Option.getD_some] at hm
    simp only [hc, Option.isNone_some, Bool.false_eq_true, if_false, if_neg,
      Option.getD_some]
    rw [if_pos hm]

theorem trendAt_temporalAdd_self {k : String} (m : List (String × TrendAccum))
    (p : Post) (e : Nat) (w : Int)
    (hm : ((trendAt m k).posts.any (fun q => q.post_id == p.post_id)) = false) :
    trendAt (temporalAdd m k p e w) k =
      ⟨k, (trendAt m k).posts ++ [p], (trendAt m k).totalEngagement + e,
       mapSet (trendAt m k).timeSeries w
         ((mapGet (trendAt m k).timeSeries w).getD 0 + e)⟩ := by
  unfold trendAt at hm ⊢
  simp only [temporalAdd]
  rcases hc : mapGet m k with _ | v
  · rw [hc] at hm
    simp only [hc, Option.isNone_none, if_true, if_pos, Option.getD_none]
    rw [mapGet_mapSet_self]
    simp only [Option.getD_some]
    rw [if_neg (by simp), mapGet_mapSet_self]
    rfl
  · rw [hc] at hm
    simp only [Option.getD_some] at hm
    simp only [hc, Option.isNone_some, Bool.false_eq_true, if_false, if_neg,
      Option.getD_some]
    rw [if_neg (by rw [hm]; simp), mapGet_mapSet_self]
    rfl

theorem processTemporalPost_eq_foldKeys (m : List (String × TrendAccum))
    (p : Post) (he : ¬ rawEngagement p < 20) :
    processTemporalPost m p =
      (temporalKeysOf p).foldl
        (fun m k => temporalAdd m k p (rawEngagement p) (weekOf p.timestamp)) m := by
  unfold processTemporalPost temporalKeysOf
  rw [if_neg he, List.foldl_append, foldl_ite_filter]
  congr 1
  by_cases hh : p.hashtags = ""
  · simp [hh]
  · simp only [if_neg hh]
    rw [foldl_ite_filter]

theorem trendAt_foldKeys_other {t : String} (p : Post) (e : Nat) (w : Int) :
    ∀ (ks : List String) (m), t ∉ ks →
      trendAt (ks.foldl (fun m k => temporalAdd m k p e w) m) t = trendAt m t := by
  intro ks
  induction ks with
  | nil => intro m _; rfl
  | cons k ks ih =>
    intro m hn
    simp only [List.foldl_cons]
    rw [ih _ (fun h => hn (List.mem_cons_of_mem k h)),
      trendAt_temporalAdd_other
        (fun he => hn (by rw [he]; exact List.mem_cons_self k ks))]

theorem trendAt_foldKeys_member {t : String} (p : Post) (e : Nat) (w : Int) :
    ∀ (ks : List String) (m),
      ((trendAt m t).posts.any (fun q => q.post_id == p.post_id)) = true →
      trendAt (ks.foldl (fun m k => temporalAdd m k p e w) m) t = trendAt m t := by
  intro ks
  induction ks with
  | nil => intro m _; rfl
  | cons k ks ih =>
    intro m hm
    simp only [List.foldl_cons]
    by_cases hk : k = t
    · subst hk
      rw [temporalAdd_of_member m p e w hm, ih m hm]
    · rw [ih _ (by rw [trendAt_temporalAdd_other (fun he => hk he.symm)]; exact hm),
        trendAt_temporalAdd_other (fun he => hk he.symm)]

theorem trendAt_foldKeys_fresh {t : String} (p : Post) (e : Nat) (w : Int) :
    ∀ (ks : List String) (m), t ∈ ks →
      ((trendAt m t).posts.any (fun q => q.post_id == p.post_id)) = false →
      trendAt (ks.foldl (fun m k => temporalAdd m k p e w) m) t =
        ⟨t, (trendAt m t).posts ++ [p], (trendAt m t).totalEngagement + e,
         mapSet (trendAt m t).timeSeries w
           ((mapGet (trendAt m t).timeSeries w).getD 0 + e)⟩ := by
  intro ks
  induction ks with
  | nil => intro m hmem; exact absurd hmem (List.not_mem_nil t)
  | cons k ks ih =>
    intro m hmem hfresh
    simp only [List.foldl_cons]
    by_cases hk : k = t
    · subst hk
      rw [trendAt_foldKeys_member p e w ks _
          (by rw [trendAt_temporalAdd_self m p e w hfresh]
              simp),
        trendAt_temporalAdd_self m p e w hfresh]
    · rcases List.mem_cons.mp hmem with hkt | hks
      · exact absurd hkt.symm hk
      · rw [ih _ hks
            (by rw [trendAt_temporalAdd_other (fun he => hk he.symm)]; exact hfresh),
          trendAt_temporalAdd_other (fun he => hk he.symm)]

/-- Post with raw engagement 22 above the threshold but weighted engagement
25, with the single hashtag fun and no content keywords. -/
def c2Post : Post :=
  ⟨"p2", "Twitter", "u", "", "fun", "Gaming", 20, 1, 1, "positive", 0, "India"⟩

/-- C2 counterexample: processing the one qualifying post adds its raw
engagement 22, not its weighted engagement 25, to both the trend total and
the week bucket, so the claimed weighted additions are wrong. -/
theorem c2_counterexample :
    (trendAt (temporalTrendMap [c2Post]) "fun").totalEngagement =
        rawEngagement c2Post ∧
    (trendAt (temporalTrendMap [c2Post]) "fun").totalEngagement ≠
        calculateEngagement c2Post ∧
    mapGet (trendAt (temporalTrendMap [c2Post]) "fun").timeSeries
        (weekOf c2Post.timestamp) ≠ some (calculateEngagement c2Post) := by
  with_unfolding_all decide

/-- C2 amended: for every post whose raw engagement meets the threshold of
20, for each extracted key not yet holding the post, the Trend Aggregator
adds the post's RAW engagement (likes + shares + comments) to the trend's
accumulated total and adds the same raw engagement to the period bucket for
period = floor(timestamp / one week), also appending the post. -/
theorem c2_aggregator_adds_raw (m : List (String × TrendAccum)) (p : Post)
    (t : String) (hth : 20 ≤ rawEngagement p) (hkey : t ∈ temporalKeysOf p)
    (hfresh : ((trendAt m t).posts.any (fun q => q.post_id == p.post_id)) = false) :
    (trendAt (processTemporalPost m p) t).totalEngagement =
        (trendAt m t).totalEngagement + rawEngagement p ∧
    mapGet (trendAt (processTemporalPost m p) t).timeSeries (weekOf p.timestamp) =
        some ((mapGet (trendAt m t).timeSeries (weekOf p.timestamp)).getD 0 +
          rawEngagement p) ∧
    (trendAt (processTemporalPost m p) t).posts = (trendAt m t).posts ++ [p] := by
  rw [processTemporalPost_eq_foldKeys m p (by omega),
    trendAt_foldKeys_fresh p (rawEngagement p) (weekOf p.timestamp)
      (temporalKeysOf p) m hkey hfresh]
  exact ⟨rfl, mapGet_mapSet_self _ _ _, rfl⟩

/-- Concrete input for the C2 witness: the counterexample post processed
from the empty accumulator at its hashtag key. -/
theorem c2_aggregator_adds_raw_witness :
    (trendAt (processTemporalPost [] c2Post) "fun").totalEngagement =
        (trendAt [] "fun").totalEngagement + rawEngagement c2Post ∧
    mapGet (trendAt (processTemporalPost [] c2Post) "fun").timeSeries
        (weekOf c2Post.timestamp) =
      some ((mapGet (trendAt [] "fun").timeSeries (weekOf c2Post.timestamp)).getD 0 +
        rawEngagement c2Post) ∧
    (trendAt (processTemporalPost [] c2Post) "fun").posts =
        (trendAt [] "fun").posts ++ [c2Post] :=
  c2_aggregator_adds_raw [] c2Post "fun" (by decide)
    (by with_unfolding_all decide) (by decide)

/-- C7: two distinct authors who each post topic A and then topic B (with
differing topics and increasing timestamps) contribute exactly 2 to the
A to B transition counter and nothing else, and one author's same-topic
consecutive pair contributes 0 to every transition counter. -/
theorem c7_transition_counts :
    (∀ (p1 p2 p3 p4 : Post) (u1 u2 A B : String) (t1 t2 t3 t4 : Int),
      u1 ≠ u2 → A ≠ B → u1 ≠ "" → u2 ≠ "" → A ≠ "" → B ≠ "" →
      t1 < t2 → t3 < t4 →
      p1.user = u1 → p1.topic = A → p1.timestamp = t1 →
      p2.user = u1 → p2.topic = B → p2.timestamp = t2 →
      p3.user = u2 → p3.topic = A → p3.timestamp = t3 →
      p4.user = u2 → p4.topic = B → p4.timestamp = t4 →
      (sequenceCountsOf [p1, p2, p3, p4]).1 = [(A ++ "|" ++ B, 2)]) ∧
    (∀ (q1 q2 : Post) (u C : String),
      u ≠ "" → C ≠ "" →
      q1.user = u → q1.topic = C → q2.user = u → q2.topic = C →
      (sequenceCountsOf [q1, q2]).1 = []) := by
  constructor
  · intro p1 p2 p3 p4 u1 u2 A B t1 t2 t3 t4 hu hAB hu1 hu2 hA hB hlt1 hlt2
      e1u e1t e1s e2u e2t e2s e3u e3t e3s e4u e4t e4s
    have hbu : (u1 == u2) = false := beq_eq_false_iff_ne.mpr hu
    have hbu2 : (u2 == u1) = false := beq_eq_false_iff_ne.mpr (Ne.symm hu)
    have hbAB : (A == B) = false := beq_eq_false_iff_ne.mpr hAB
    simp [sequenceCountsOf, userSequencesOf, seqTransitions, jsSortBy, insertLe,
      mapGet, mapSet, e1u, e1t, e1s, e2u, e2t, e2s, e3u, e3t, e3s, e4u, e4t, e4s,
      hu1, hu2, hA, hB, hAB, hbu, hbu2, hbAB, le_of_lt hlt1, le_of_lt hlt2]
  · intro q1 q2 u C hune hCne e1u e1t e2u e2t
    by_cases hle : q1.timestamp ≤ q2.timestamp
    · simp [sequenceCountsOf, userSequencesOf, seqTransitions, jsSortBy, insertLe,
        mapGet, mapSet, e1u, e1t, e2u, e2t, hune, hCne, hle]
    · simp [sequenceCountsOf, userSequencesOf, seqTransitions, jsSortBy, insertLe,
        mapGet, mapSet, e1u, e1t, e2u, e2t, hune, hCne, hle]

/-- Concrete input for the C7 witness: authors a and b each posting topic x
then topic y a millisecond apart, and author a posting topic x twice. -/
theorem c7_transition_counts_witness :
    (sequenceCountsOf
      [⟨"i1", "Twitter", "a", "", "", "x", 1, 0, 0, "positive", 0, "India"⟩,
       ⟨"i2", "Twitter", "a", "", "", "y", 1, 0, 0, "positive", 1, "India"⟩,
       ⟨"i3", "Twitter", "b", "", "", "x", 1, 0, 0, "positive", 0, "India"⟩,
       ⟨"i4", "Twitter", "b", "", "", "y", 1, 0, 0, "positive", 1, "India"⟩]).1 =
      [("x" ++ "|" ++ "y", 2)] ∧
    (sequenceCountsOf
      [⟨"j1", "Twitter", "a", "", "", "x", 1, 0, 0, "positive", 0, "India"⟩,
       ⟨"j2", "Twitter", "a", "", "", "x", 1, 0, 0, "positive", 1, "India"⟩]).1 = [] :=
  ⟨c7_transition_counts.1 _ _ _ _ "a" "b" "x" "y" 0 1 0 1
      (by decide) (by decide) (by decide) (by decide) (by decide) (by decide)
      (by decide) (by decide) rfl rfl rfl rfl rfl rfl rfl rfl rfl rfl rfl rfl,
   c7_transition_counts.2 _ _ "a" "x" (by decide) (by decide) rfl rfl rfl rfl⟩

/-! Provenance of emitted association rules: every rule of the output was
built from a qualifying itemPairs entry with some value of the random
stream. -/

theorem assocGroup_invariant (data : List Post) (rand : Nat → ℚ) :
    ∀ (l : List (String × PairData))
      (acc : List (String × List AssociationRule) × Nat),
    ∀ kv2 ∈ (l.foldl (assocGroupStep data rand) acc).1, ∀ r ∈ kv2.2,
      (∃ kv0 ∈ acc.1, r ∈ kv0.2) ∨
      ∃ kv ∈ l, ∃ i, 8 ≤ kv.2.count ∧ r = (buildRule data kv.1 kv.2 (rand i)).1 := by
  intro l
  induction l with
  | nil =>
    intro acc kv2 h2 r hr
    exact Or.inl ⟨kv2, h2, hr⟩
  | cons kv l ih =>
    intro acc kv2 h2 r hr
    simp only [List.foldl_cons] at h2
    rcases ih _ kv2 h2 r hr with ⟨kv0, h0, hr0⟩ | ⟨kv3, h3, i, hc, he⟩
    · by_cases hcnt : kv.2.count < 8
      · rw [show assocGroupStep data rand acc kv = acc from by
            unfold assocGroupStep; rw [if_pos hcnt]] at h0
        exact Or.inl ⟨kv0, h0, hr0⟩
      · unfold assocGroupStep at h0
        rw [if_neg hcnt] at h0
        rcases mem_mapSet h0 with heq | hmem
        · rw [heq] at hr0
          rcases List.mem_append.mp hr0 with hg | hs
          · rcases hget : mapGet acc.1 (kv.2.topics.headD "") with _ | g
            · rw [hget] at hg
              simp at hg
            · rw [hget] at hg
              simp only [Option.getD_some] at hg
              rcases mapGet_some_mem hget with ⟨k2, hk2⟩
              exact Or.inl ⟨(k2, g), hk2, hg⟩
          · simp only [List.mem_singleton] at hs
            exact Or.inr ⟨kv, List.mem_cons_self kv l, acc.2,
              Nat.le_of_not_lt hcnt, hs⟩
        · exact Or.inl ⟨kv0, hmem, hr0⟩
    · exact Or.inr ⟨kv3, List.mem_cons_of_mem kv h3, i, hc, he⟩

theorem assocRule_source {rand : Nat → ℚ} {data : List Post}
    {r : AssociationRule} (hr : r ∈ mineAssociationRules rand data) :
    ∃ kv ∈ assocPairs data, ∃ i, 8 ≤ kv.2.count ∧
      r = (buildRule data kv.1 kv.2 (rand i)).1 := by
  unfold mineAssociationRules at hr
  have h1 := List.mem_of_mem_take hr
  have hgroup : ∃ kv2 ∈ ((assocPairs data).foldl (assocGroupStep data rand)
      ([], 0)).1, r ∈ kv2.2 := by
    rcases mem_foldl_condPush h1 with h2 | h2
    · rcases mem_foldl_append.mp h2 with h3 | ⟨kv, hkv, hr3⟩
      · exact absurd h3 (List.not_mem_nil r)
      · rcases List.mem_map.mp hkv with ⟨kv0, hkv0, hmap⟩
        refine ⟨kv0, hkv0, ?_⟩
        have : r ∈ jsSortBy ruleCountDesc kv0.2 := by
          have := List.mem_of_mem_take hr3
          rwa [← show (kv0.1, jsSortBy ruleCountDesc kv0.2).2 =
            jsSortBy ruleCountDesc kv0.2 from rfl, hmap]
        exact mem_jsSortBy.mp this
    · rcases mem_foldl_append.mp (mem_jsSortBy.mp h2) with h3 | ⟨kv, hkv, hr3⟩
      · exact absurd h3 (List.not_mem_nil r)
      · rcases List.mem_map.mp hkv with ⟨kv0, hkv0, hmap⟩
        refine ⟨kv0, hkv0, ?_⟩
        have : r ∈ jsSortBy ruleCountDesc kv0.2 := by
          rwa [← show (kv0.1, jsSortBy ruleCountDesc kv0.2).2 =
            jsSortBy ruleCountDesc kv0.2 from rfl, hmap]
        exact mem_jsSortBy.mp this
  rcases hgroup with ⟨kv2, h2, hr2⟩
  rcases assocGroup_invariant data rand (assocPairs data) ([], 0) kv2 h2 r hr2 with
    ⟨kv0, h0, _⟩ | hsrc
  · exact absurd h0 (List.not_mem_nil kv0)
  · exact hsrc

theorem itemsetGroup_invariant (data : List Post) :
    ∀ (l : List (String × ItemsetData))
      (acc : List (String × List FrequentItemset)),
    ∀ kv2 ∈ l.foldl (itemsetGroupStep data) acc, ∀ s ∈ kv2.2,
      (∃ kv0 ∈ acc, s ∈ kv0.2) ∨
      ∃ kv ∈ l, 8 ≤ kv.2.count ∧ s.occurrence_count = kv.2.count := by
  intro l
  induction l with
  | nil =>
    intro acc kv2 h2 s hs
    exact Or.inl ⟨kv2, h2, hs⟩
  | cons kv l ih =>
    intro acc kv2 h2 s hs
    simp only [List.foldl_cons] at h2
    rcases ih _ kv2 h2 s hs with ⟨kv0, h0, hs0⟩ | ⟨kv3, h3, hc, he⟩
    · by_cases hcnt : kv.2.count < 8
      · rw [show itemsetGroupStep data acc kv = acc from by
            unfold itemsetGroupStep; rw [if_pos hcnt]] at h0
        exact Or.inl ⟨kv0, h0, hs0⟩
      · unfold itemsetGroupStep at h0
        rw [if_neg hcnt] at h0
        rcases mem_mapSet h0 with heq | hmem
        · rw [heq] at hs0
          rcases List.mem_append.mp hs0 with hg | hone
          · rcases hget : mapGet acc (kv.2.topics.headD "") with _ | g
            · rw [hget] at hg
              simp at hg
            · rw [hget] at hg
              simp only [Option.getD_some] at hg
              rcases mapGet_some_mem hget with ⟨k2, hk2⟩
              exact Or.inl ⟨(k2, g), hk2, hg⟩
          · simp only [List.mem_singleton] at hone
            exact Or.inr ⟨kv, List.mem_cons_self kv l, Nat.le_of_not_lt hcnt,
              by rw [hone]⟩
        · exact Or.inl ⟨kv0, hmem, hs0⟩
    · exact Or.inr ⟨kv3, List.mem_cons_of_mem kv h3, hc, he⟩

theorem seqPattern_invariant (totalUsers : Nat)
    (timings : List (String × List ℚ)) :
    ∀ (l : List (String × Nat)) (acc : List SequentialPattern),
    ∀ q ∈ l.foldl (seqPatternStep totalUsers timings) acc,
      q ∈ acc ∨ ∃ kv ∈ l, 3 ≤ kv.2 ∧ q.occurrence_count = kv.2 := by
  intro l
  induction l with
  | nil => intro acc q hq; exact Or.inl hq
  | cons kv l ih =>
    intro acc q hq
    simp only [List.foldl_cons] at hq
    rcases ih _ q hq with h0 | ⟨kv3, h3, hc, he⟩
    · by_cases hcnt : kv.2 < 3
      · rw [show seqPatternStep totalUsers timings acc kv = acc from by
            unfold seqPatternStep; rw [if_pos hcnt]] at h0
        exact Or.inl h0
      · unfold seqPatternStep at h0
        rw [if_neg hcnt] at h0
        rcases List.mem_append.mp h0 with hacc | hone
        · exact Or.inl hacc
        · simp only [List.mem_singleton] at hone
          exact Or.inr ⟨kv, List.mem_cons_self kv l, Nat.le_of_not_lt hcnt,
            by rw [hone]⟩
    · exact Or.inr ⟨kv3, List.mem_cons_of_mem kv h3, hc, he⟩

/-- C8: every emitted AssociationRule has at least 8 occurrences, every
emitted FrequentItemset has at least 8, and every emitted SequentialPattern
has at least 3: each miner drops candidates below its minimum before they
enter the result set. -/
theorem c8_minimum_occurrence :
    (∀ (rand : Nat → ℚ) (data : List Post), ∀ r ∈ mineAssociationRules rand data,
      8 ≤ r.occurrence_count) ∧
    (∀ data : List Post, ∀ s ∈ mineFrequentItemsets data,
      8 ≤ s.occurrence_count) ∧
    (∀ data : List Post, ∀ q ∈ mineSequentialPatterns data,
      3 ≤ q.occurrence_count) := by
  refine ⟨?_, ?_, ?_⟩
  · intro rand data r hr
    rcases assocRule_source hr with ⟨kv, _, i, hc, he⟩
    rw [he]
    exact hc
  · intro data s hs
    unfold mineFrequentItemsets at hs
    have h1 := List.mem_of_mem_take hs
    rcases mem_foldl_append.mp (mem_jsSortBy.mp h1) with h2 | ⟨kv, hkv, hs2⟩
    · exact absurd h2 (List.not_mem_nil s)
    · have hsin : s ∈ kv.2 := mem_jsSortBy.mp (List.mem_of_mem_take hs2)
      rcases itemsetGroup_invariant data (data.foldl itemsetStep []) [] kv hkv
          s hsin with ⟨kv0, h0, _⟩ | ⟨_, _, hc, he⟩
      · exact absurd h0 (List.not_mem_nil kv0)
      · rw [he]
        exact hc
  · intro data q hq
    unfold mineSequentialPatterns at hq
    have h1 := mem_jsSortBy.mp (List.mem_of_mem_take hq)
    rcases seqPattern_invariant (userSequencesOf data).length
        (sequenceCountsOf data).2 (sequenceCountsOf data).1 [] q h1 with
      h0 | ⟨_, _, hc, he⟩
    · exact absurd h0 (List.not_mem_nil q)
    · rw [he]
      exact hc

/-- Eight one-hashtag posts sharing a topic, for the C8 itemset witness. -/
def c8ItemPosts : List Post :=
  (List.range 8).map (fun i =>
    ⟨toString i, "Twitter", "u", "", "abc", "t", 30, 0, 0, "positive", 0,
     "India"⟩)

/-- One author alternating between two topics, for the C8 sequence witness. -/
def c8SeqPosts : List Post :=
  (List.range 6).map (fun i =>
    ⟨toString i, "Twitter", "u", "", "", if i % 2 = 0 then "x" else "y",
     5, 0, 0, "positive", (i : Int), "India"⟩)

theorem headD_mem {l : List α} {d : α} (h : l ≠ []) : l.headD d ∈ l := by
  cases l with
  | nil => exact absurd rfl h
  | cons x xs => exact List.mem_cons_self x xs

/-- Concrete inputs for the C8 witness: the Hello corpus emits one rule and
the hashtag corpus one itemset, both with 8 occurrences, and one author
alternating between two topics emits one sequential pattern with 3. -/
theorem c8_minimum_occurrence_witness :
    8 ≤ ((mineAssociationRules (fun _ => 0) c5Posts).headD default).occurrence_count ∧
    8 ≤ ((mineFrequentItemsets c8ItemPosts).headD default).occurrence_count ∧
    3 ≤ ((mineSequentialPatterns c8SeqPosts).headD default).occurrence_count := by
  refine ⟨?_, ?_, ?_⟩
  · exact c8_minimum_occurrence.1 (fun _ => 0) c5Posts
      ((mineAssociationRules (fun _ => 0) c5Posts).headD default)
      (headD_mem (by with_unfolding_all decide))
  · exact c8_minimum_occurrence.2.1 c8ItemPosts
      ((mineFrequentItemsets c8ItemPosts).headD default)
      (headD_mem (by with_unfolding_all decide))
  · exact c8_minimum_occurrence.2.2 c8SeqPosts
      ((mineSequentialPatterns c8SeqPosts).headD default)
      (headD_mem (by with_unfolding_all decide))

theorem growthRatesOf_bounds (values : List ℚ) :
    ∀ r ∈ growthRatesOf values, -200 ≤ r ∧ r ≤ 200 := by
  intro r hr
  rcases List.mem_map.mp hr with ⟨pv, _, he⟩
  rw [← he]
  split
  · exact ⟨le_max_left _ _, max_le (by norm_num) (min_le_left _ _)⟩
  · split
    · norm_num
    · norm_num

theorem assocGrowthRate_bounds (sorted : List Post) (rnd : ℚ)
    (h0 : 0 ≤ rnd) (h1 : rnd < 1) :
    -200 ≤ (assocGrowthRate sorted rnd).1 ∧ (assocGrowthRate sorted rnd).1 ≤ 200 := by
  have hc200 : ((200 : Int) : ℚ) = 200 := by push_cast; ring
  have hcm200 : ((-200 : Int) : ℚ) = -200 := by push_cast; ring
  simp only [assocGrowthRate]
  split
  · split
    · split
      case isTrue hfirst =>
        split
        case isTrue hraw =>
          have hle : jsRound (min 100 (50 +
              (((mapGet (weekGroups sorted) ((jsSortBy (fun a b => a ≤ b)
                ((weekGroups sorted).map (fun g => g.1))).getLastD 0)).getD 0 : ℚ) -
               ((mapGet (weekGroups sorted) ((jsSortBy (fun a b => a ≤ b)
                ((weekGroups sorted).map (fun g => g.1))).headD 0)).getD 0 : ℚ)) /
               ((mapGet (weekGroups sorted) ((jsSortBy (fun a b => a ≤ b)
                ((weekGroups sorted).map (fun g => g.1))).headD 0)).getD 0 : ℚ) * 100 / 4)) ≤ 100 := by
            refine jsRound_le_intCast ?_
            rw [show ((100 : Int) : ℚ) = 100 by push_cast; ring]
            exact min_le_left _ _
          have hge : (50 : Int) ≤ jsRound (min 100 (50 +
              (((mapGet (weekGroups sorted) ((jsSortBy (fun a b => a ≤ b)
                ((weekGroups sorted).map (fun g => g.1))).getLastD 0)).getD 0 : ℚ) -
               ((mapGet (weekGroups sorted) ((jsSortBy (fun a b => a ≤ b)
                ((weekGroups sorted).map (fun g => g.1))).headD 0)).getD 0 : ℚ)) /
               ((mapGet (weekGroups sorted) ((jsSortBy (fun a b => a ≤ b)
                ((weekGroups sorted).map (fun g => g.1))).headD 0)).getD 0 : ℚ) * 100 / 4)) := by
            refine intCast_le_jsRound ?_
            rw [show ((50 : Int) : ℚ) = 50 by push_cast; ring]
            refine le_min (by norm_num) (by linarith)
          split
          · exact ⟨le_min (by norm_num) (by omega),
              le_trans (min_le_left _ _) (by norm_num)⟩
          · exact ⟨by omega, by omega⟩
        case isFalse hraw =>
          push_neg at hraw
          constructor
          · refine intCast_le_jsRound ?_
            rw [hcm200]
            exact le_trans (by norm_num) (le_max_left _ _)
          · refine jsRound_le_intCast ?_
            rw [hc200]
            refine max_le (by norm_num) (by linarith)
      case isFalse hfirst =>
        split
        case isTrue hlast =>
          have hnn : (0 : Int) ≤ (((mapGet (weekGroups sorted)
              ((jsSortBy (fun a b => a ≤ b)
                ((weekGroups sorted).map (fun g => g.1))).getLastD 0)).getD 0 : Nat) : Int) :=
            Int.ofNat_nonneg _
          exact ⟨le_min (by norm_num) (by omega),
            le_trans (min_le_left _ _) (by norm_num)⟩
        case isFalse => norm_num
    · split
      · constructor
        · refine intCast_le_jsRound ?_
          rw [hcm200]
          nlinarith
        · refine jsRound_le_intCast ?_
          rw [hc200]
          nlinarith
      · constructor
        · refine intCast_le_jsRound ?_
          rw [hcm200]
          nlinarith
        · refine jsRound_le_intCast ?_
          rw [hc200]
          nlinarith
  · constructor
    · refine intCast_le_jsRound ?_
      rw [hcm200]
      nlinarith
    · refine jsRound_le_intCast ?_
      rw [hc200]
      nlinarith

/-- C9: every growth rate the engine produces lies in the interval from
-200 to 200: each clamped per-step temporal rate, and the growth rate of
every emitted association rule (given that Math.random draws lie in the
unit interval). -/
theorem c9_growth_rate_bounds :
    (∀ values : List ℚ, ∀ r ∈ growthRatesOf values, -200 ≤ r ∧ r ≤ 200) ∧
    (∀ (rand : Nat → ℚ) (data : List Post),
      (∀ k, 0 ≤ rand k ∧ rand k < 1) →
      ∀ r ∈ mineAssociationRules rand data,
        -200 ≤ r.growth_rate ∧ r.growth_rate ≤ 200) := by
  constructor
  · exact growthRatesOf_bounds
  · intro rand data hrand r hr
    rcases assocRule_source hr with ⟨kv, _, i, _, he⟩
    rw [he]
    exact assocGrowthRate_bounds
      (jsSortBy (fun a b => a.timestamp ≤ b.timestamp) kv.2.posts)
      (rand i) (hrand i).1 (hrand i).2

/-- Eight Hello posts sharing one topic, the C9 witness corpus. -/
def c9Posts : List Post :=
  (List.range 8).map (fun i =>
    ⟨"c9" ++ toString i, "Twitter", "v" ++ toString i, "Hello", "", "s",
     30, 0, 0, "positive", 0, "India"⟩)

/-- Concrete inputs for the C9 witness: the clamped rate 200 of the value
pair (1, 3), and the one rule of the Hello corpus under the constant-zero
random stream. -/
theorem c9_growth_rate_bounds_witness :
    (-200 ≤ (200 : ℚ) ∧ (200 : ℚ) ≤ 200) ∧
    (-200 ≤ ((mineAssociationRules (fun _ => 0) c9Posts).headD default).growth_rate ∧
      ((mineAssociationRules (fun _ => 0) c9Posts).headD default).growth_rate ≤ 200) :=
  ⟨c9_growth_rate_bounds.1 [1, 3] 200 (by with_unfolding_all decide),
   c9_growth_rate_bounds.2 (fun _ => 0) c9Posts
     (fun _ => ⟨le_refl 0, by norm_num⟩)
     ((mineAssociationRules (fun _ => 0) c9Posts).headD default)
     (headD_mem (by with_unfolding_all decide))⟩

theorem chSplit_no_sep {sep : Char} : ∀ {l : List Char}, sep ∉ l →
    chSplit sep l = [l] := by
  intro l
  induction l with
  | nil => intro _; rfl
  | cons c cs ih =>
    intro h
    have h1 : (c == sep) = false := beq_eq_false_iff_ne.mpr
      (fun he => h (by rw [← he]; exact List.mem_cons_self c cs))
    have h2 : sep ∉ cs := fun he => h (List.mem_cons_of_mem c he)
    simp [chSplit, h1, ih h2]

theorem chSplit_sep_mid {sep : Char} : ∀ {a : List Char} (b : List Char),
    sep ∉ a → chSplit sep (a ++ sep :: b) = a :: chSplit sep b := by
  intro a
  induction a with
  | nil =>
    intro b _
    simp [chSplit]
  | cons c cs ih =>
    intro b h
    have h1 : (c == sep) = false := beq_eq_false_iff_ne.mpr
      (fun he => h (by rw [← he]; exact List.mem_cons_self c cs))
    have h2 : sep ∉ cs := fun he => h (List.mem_cons_of_mem c he)
    simp only [List.cons_append, chSplit, h1, Bool.false_eq_true, if_false]
    rw [show cs.append (sep :: b) = cs ++ sep :: b from rfl, ih b h2]

theorem strSplit_pipe_two (x y : String) (hx : '|' ∉ x.data)
    (hy : '|' ∉ y.data) : strSplit '|' (x ++ "|" ++ y) = [x, y] := by
  unfold strSplit
  have hdata : (x ++ "|" ++ y).data = x.data ++ '|' :: y.data := by
    show (x.data ++ ['|']) ++ y.data = x.data ++ '|' :: y.data
    rw [List.append_assoc]
    rfl
  rw [hdata, chSplit_sep_mid y.data hx, chSplit_no_sep hy]
  rfl

theorem mem_takeWhile_pred {p : α → Bool} :
    ∀ {l : List α} {x : α}, x ∈ l.takeWhile p → p x = true := by
  intro l
  induction l with
  | nil => intro x h; simp [List.takeWhile] at h
  | cons c cs ih =>
    intro x h
    rw [List.takeWhile_cons] at h
    split at h
    · rcases List.mem_cons.mp h with he | hm
      · rwa [he]
      · exact ih hm
    · simp at h

theorem capWords_no_pipe : ∀ (n : Nat) (b : Bool) (cs : List Char),
    cs.length ≤ n → ∀ w ∈ capWords b cs, '|' ∉ w.data := by
  intro n
  induction n with
  | zero =>
    intro b cs hlen w hw
    rcases cs with _ | ⟨c, cs⟩
    · simp [capWords] at hw
    · simp at hlen
  | succ n ih =>
    intro b cs hlen w hw
    rcases cs with _ | ⟨c, cs⟩
    · simp [capWords] at hw
    · have hlen2 : cs.length ≤ n := by
        simp only [List.length_cons] at hlen
        omega
      simp only [capWords] at hw
      split at hw
      case isTrue hcond =>
        split at hw
        case isTrue hrun =>
          rcases List.mem_cons.mp hw with he | hm
          · rw [he]
            intro hpipe
            rcases List.mem_cons.mp hpipe with hp | hp
            · have hcond2 := hcond
              simp only [Bool.and_eq_true] at hcond2
              have hup := hcond2.2
              rw [← hp] at hup
              exact absurd hup (by decide)
            · have hlow := mem_takeWhile_pred hp
              exact absurd hlow (by decide)
          · refine ih true _ ?_ w hm
            simp only [List.length_drop]
            omega
        case isFalse =>
          exact ih (isWordCh c) cs hlen2 w hw
      case isFalse =>
        exact ih (isWordCh c) cs hlen2 w hw

theorem mem_setAdd [BEq α] {s : List α} {x y : α} (h : y ∈ setAdd s x) :
    y ∈ s ∨ y = x := by
  unfold setAdd at h
  split at h
  · exact Or.inl h
  · rcases List.mem_append.mp h with h2 | h2
    · exact Or.inl h2
    · exact Or.inr (List.mem_singleton.mp h2)

theorem mem_setAddAll [BEq α] : ∀ {xs s : List α} {y : α},
    y ∈ setAddAll s xs → y ∈ s ∨ y ∈ xs := by
  intro xs
  induction xs with
  | nil => intro s y h; exact Or.inl h
  | cons x xs ih =>
    intro s y h
    unfold setAddAll at h ih
    rw [List.foldl_cons] at h
    rcases ih h with h2 | h2
    · rcases mem_setAdd h2 with h3 | h3
      · exact Or.inl h3
      · exact Or.inr (h3 ▸ List.mem_cons_self x xs)
    · exact Or.inr (List.mem_cons_of_mem x h2)

theorem assocItems_no_pipe {p : Post} (ht : '|' ∉ p.topic.data)
    (hh : ∀ tag ∈ extractHashtags p.hashtags, '|' ∉ tag.data) :
    ∀ x ∈ assocItems p, '|' ∉ x.data := by
  intro x hx
  unfold assocItems at hx
  rcases mem_setAddAll hx with h | h
  · rcases mem_setAdd h with h2 | h2
    · exact absurd h2 (List.not_mem_nil x)
    · rw [h2]
      exact ht
  · rcases List.mem_append.mp h with h2 | h2
    · exact hh x (List.mem_of_mem_take h2)
    · unfold extractKeywords at h2
      split at h2
      · exact absurd h2 (List.not_mem_nil x)
      · exact capWords_no_pipe p.content.data.length false p.content.data
          (le_refl _) x (List.mem_of_mem_take h2)

theorem mem_allPairs : ∀ {l : List α} {ab : α × α}, ab ∈ allPairs l →
    ab.1 ∈ l ∧ ab.2 ∈ l := by
  intro l
  induction l with
  | nil => intro ab h; simp [allPairs] at h
  | cons x xs ih =>
    intro ab h
    unfold allPairs at h
    rcases List.mem_append.mp h with h2 | h2
    · rcases List.mem_map.mp h2 with ⟨y, hy, he⟩
      rw [← he]
      exact ⟨List.mem_cons_self x xs, List.mem_cons_of_mem x hy⟩
    · rcases ih h2 with ⟨h3, h4⟩
      exact ⟨List.mem_cons_of_mem x h3, List.mem_cons_of_mem x h4⟩

theorem mem_pairFold {post : Post} :
    ∀ (pairs : List (String × String)) (acc : List (String × PairData))
      {kv : String × PairData},
    kv ∈ pairs.foldl (fun m ab =>
      let key := pairKey ab.1 ab.2
      let pd := (mapGet m key).getD ⟨0, [], []⟩
      mapSet m key
        ⟨pd.count + 1,
         if pd.posts.length < 5 then pd.posts ++ [post] else pd.posts,
         setAdd pd.topics post.topic⟩) acc →
    kv ∈ acc ∨ ∃ ab ∈ pairs, kv.1 = pairKey ab.1 ab.2 := by
  intro pairs
  induction pairs with
  | nil => intro acc kv h; exact Or.inl h
  | cons ab pairs ih =>
    intro acc kv h
    rw [List.foldl_cons] at h
    rcases ih _ h with h2 | ⟨ab2, hab2, he⟩
    · rcases mem_mapSet h2 with heq | hmem
      · exact Or.inr ⟨ab, List.mem_cons_self ab pairs, by rw [heq]⟩
      · exact Or.inl hmem
    · exact Or.inr ⟨ab2, List.mem_cons_of_mem ab hab2, he⟩

theorem mem_assocPairStep {m : List (String × PairData)} {post : Post}
    {kv : String × PairData} (h : kv ∈ assocPairStep m post) :
    kv ∈ m ∨ ∃ ab ∈ allPairs (assocItems post), kv.1 = pairKey ab.1 ab.2 := by
  unfold assocPairStep at h
  split at h
  · exact Or.inl h
  · exact mem_pairFold (allPairs (assocItems post)) m h

theorem mem_assocPairs {data : List Post} {kv : String × PairData}
    (h : kv ∈ assocPairs data) :
    ∃ p ∈ data, ∃ ab ∈ allPairs (assocItems p), kv.1 = pairKey ab.1 ab.2 := by
  unfold assocPairs at h
  suffices haux : ∀ (l : List Post) (acc : List (String × PairData)),
      kv ∈ l.foldl assocPairStep acc →
      kv ∈ acc ∨ ∃ p ∈ l, ∃ ab ∈ allPairs (assocItems p),
        kv.1 = pairKey ab.1 ab.2 by
    rcases haux data [] h with h2 | h2
    · exact absurd h2 (List.not_mem_nil kv)
    · exact h2
  intro l
  induction l with
  | nil => intro acc h2; exact Or.inl h2
  | cons p l ih =>
    intro acc h2
    rw [List.foldl_cons] at h2
    rcases ih _ h2 with h3 | ⟨q, hq, hab⟩
    · rcases mem_assocPairStep h3 with h4 | h4
      · exact Or.inl h4
      · exact Or.inr ⟨p, List.mem_cons_self p l, h4⟩
    · exact Or.inr ⟨q, List.mem_cons_of_mem p hq, hab⟩

theorem buildRule_antecedent (data : List Post) (key : String) (pd : PairData)
    (rnd : ℚ) :
    (buildRule data key pd rnd).1.antecedent = [(strSplit '|' key).getD 0 ""] :=
  rfl

theorem buildRule_consequent (data : List Post) (key : String) (pd : PairData)
    (rnd : ℚ) :
    (buildRule data key pd rnd).1.consequent = [(strSplit '|' key).getD 1 ""] :=
  rfl

/-- Eight posts whose topic contains the pipe separator, breaking the
lexicographic direction of the emitted rule. -/
def c10Posts : List Post :=
  (List.range 8).map (fun i =>
    ⟨"t" ++ toString i, "Twitter", "w" ++ toString i, "", "c", "b|a",
     30, 0, 0, "positive", 0, "India"⟩)

/-- C10 counterexample: the pair of the items b|a and c sorts to the key
b|a|c, but splitting that key on the pipe yields antecedent b and
consequent a, which are in strictly descending order, so the claimed
invariant fails when an item contains the separator. -/
theorem c10_counterexample :
    ((mineAssociationRules (fun _ => 0) c10Posts).map
      (fun r => (r.antecedent, r.consequent))) = [(["b"], ["a"])] ∧
    strLeB "b" "a" = false := by
  with_unfolding_all decide

/-- C10 amended: provided no item carries the pipe separator (no topic and
no extracted hashtag contains it; capitalized-word keywords never do), the
antecedent of every emitted AssociationRule is lexicographically at most
its consequent. -/
theorem c10_antecedent_le_consequent (rand : Nat → ℚ) (data : List Post)
    (hfree : ∀ p ∈ data, '|' ∉ p.topic.data ∧
      ∀ tag ∈ extractHashtags p.hashtags, '|' ∉ tag.data) :
    ∀ r ∈ mineAssociationRules rand data,
      strLeB (r.antecedent.headD "") (r.consequent.headD "") = true := by
  intro r hr
  rcases assocRule_source hr with ⟨kv, hkv, i, _, he⟩
  rcases mem_assocPairs hkv with ⟨p, hp, ab, hab, hkey⟩
  have hfp := assocItems_no_pipe (hfree p hp).1 (hfree p hp).2
  have h1 : '|' ∉ ab.1.data := hfp _ (mem_allPairs hab).1
  have h2 : '|' ∉ ab.2.data := hfp _ (mem_allPairs hab).2
  rw [he, buildRule_antecedent, buildRule_consequent, hkey]
  unfold pairKey
  rw [jsSortStr_pair]
  by_cases hle : strLeB ab.1 ab.2 = true
  · rw [if_pos hle,
      show joinPipe [ab.1, ab.2] = ab.1 ++ "|" ++ ab.2 from rfl,
      strSplit_pipe_two _ _ h1 h2]
    simpa using hle
  · rw [if_neg hle,
      show joinPipe [ab.2, ab.1] = ab.2 ++ "|" ++ ab.1 from rfl,
      strSplit_pipe_two _ _ h2 h1]
    simpa using strLeB_total (Bool.eq_false_iff.mpr hle)

/-- Pipe-free corpus for the C10 witness. -/
def c10Good : List Post :=
  (List.range 8).map (fun i =>
    ⟨"g" ++ toString i, "Twitter", "w", "", "abc", "t",
     30, 0, 0, "positive", 0, "India"⟩)

/-- Concrete input for the C10 witness. -/
theorem c10_antecedent_le_consequent_witness :
    strLeB
      (((mineAssociationRules (fun _ => 0) c10Good).headD default).antecedent.headD "")
      (((mineAssociationRules (fun _ => 0) c10Good).headD default).consequent.headD "") =
      true :=
  c10_antecedent_le_consequent (fun _ => 0) c10Good
    (by with_unfolding_all decide)
    ((mineAssociationRules (fun _ => 0) c10Good).headD default)
    (headD_mem (by with_unfolding_all decide))

theorem length_insertLe {le : α → α → Bool} (x : α) :
    ∀ l : List α, (insertLe le x l).length = l.length + 1 := by
  intro l
  induction l with
  | nil => rfl
  | cons y ys ih =>
    unfold insertLe
    split
    · simp [ih]
    · simp

theorem length_jsSortBy {le : α → α → Bool} (l : List α) :
    (jsSortBy le l).length = l.length := by
  suffices haux : ∀ (l2 acc : List α),
      (l2.foldl (fun a x => insertLe le x a) acc).length =
        acc.length + l2.length by
    simpa using haux l []
  intro l2
  induction l2 with
  | nil => intro acc; simp
  | cons x xs ih =>
    intro acc
    simp only [List.foldl_cons, ih, length_insertLe, List.length_cons]
    omega

theorem assocGrowthRate_rand_free (sorted : List Post) (r1 r2 : ℚ)
    (h2 : sorted.length ≥ 2) (hw : (weekGroups sorted).length ≥ 2) :
    assocGrowthRate sorted r1 = assocGrowthRate sorted r2 := by
  have hwlen : (jsSortBy (fun a b => a ≤ b)
      ((weekGroups sorted).map (fun g => g.1))).length ≥ 2 := by
    rw [length_jsSortBy, List.length_map]
    exact hw
  simp only [assocGrowthRate, if_pos h2, if_pos hwlen]

theorem buildRule_rand_free (data : List Post) (key : String) (pd : PairData)
    (r1 r2 : ℚ) (hp : 2 ≤ pd.posts.length)
    (hw : 2 ≤ (weekGroups (jsSortBy (fun a b => a.timestamp ≤ b.timestamp)
      pd.posts)).length) :
    buildRule data key pd r1 = buildRule data key pd r2 := by
  simp only [buildRule]
  rw [assocGrowthRate_rand_free _ r1 r2 (by rw [length_jsSortBy]; exact hp) hw]

theorem assocFold_rand_free (data : List Post) (r1 r2 : Nat → ℚ) :
    ∀ (l : List (String × PairData))
      (acc : List (String × List AssociationRule) × Nat),
    (∀ kv ∈ l, 8 ≤ kv.2.count → 2 ≤ kv.2.posts.length ∧
      2 ≤ (weekGroups (jsSortBy (fun a b => a.timestamp ≤ b.timestamp)
        kv.2.posts)).length) →
    l.foldl (assocGroupStep data r1) acc = l.foldl (assocGroupStep data r2) acc := by
  intro l
  induction l with
  | nil => intro acc _; rfl
  | cons kv l ih =>
    intro acc hc
    simp only [List.foldl_cons]
    have hstep : assocGroupStep data r1 acc kv = assocGroupStep data r2 acc kv := by
      unfold assocGroupStep
      by_cases hcnt : kv.2.count < 8
      · rw [if_pos hcnt, if_pos hcnt]
      · rw [if_neg hcnt, if_neg hcnt]
        rcases hc kv (List.mem_cons_self kv l) (Nat.le_of_not_lt hcnt) with ⟨hp, hw⟩
        rw [buildRule_rand_free data kv.1 kv.2 (r1 acc.2) (r2 acc.2) hp hw]
    rw [hstep]
    exact ih _ (fun kv2 h2 => hc kv2 (List.mem_cons_of_mem kv h2))

/-- Eight posts of one pair in a single week: the sparse-data fallback draws
Math.random, so two runs can differ. -/
def c6Posts : List Post :=
  (List.range 8).map (fun i =>
    ⟨"r" ++ toString i, "Twitter", "z" ++ toString i, "", "abc", "t",
     30, 0, 0, "positive", 0, "India"⟩)

/-- C6 counterexample: two executions of the full pipeline on the same
input differ when their Math.random draws differ (both streams shown lie in
the unit interval, as Math.random guarantees): the one emitted rule's
growth rate is 5 in the first run and 10 in the second, so re-running is
not byte-identical. -/
theorem c6_counterexample :
    fullPipeline (fun _ => 0) c6Posts ≠ fullPipeline (fun _ => (1 : ℚ)/2) c6Posts := by
  intro h
  have h2 : ((fullPipeline (fun _ => 0) c6Posts).1.map (fun r => r.growth_rate)) =
      ((fullPipeline (fun _ => (1 : ℚ)/2) c6Posts).1.map (fun r => r.growth_rate)) := by
    rw [h]
  have e1 : ((fullPipeline (fun _ => 0) c6Posts).1.map (fun r => r.growth_rate)) =
      [5] := by with_unfolding_all decide
  have e2 : ((fullPipeline (fun _ => (1 : ℚ)/2) c6Posts).1.map
      (fun r => r.growth_rate)) = [10] := by with_unfolding_all decide
  rw [e1, e2] at h2
  exact absurd h2 (by decide)

/-- C6 amended: when no qualifying association pair reaches the
pseudo-random fallback, the four ranked outputs are identical across runs
whatever random values the two executions draw; the itemset, sequential and
temporal outputs never depend on them at all. -/
theorem c6_pipeline_deterministic (data : List Post) (r1 r2 : Nat → ℚ)
    (h : noFallback data) :
    fullPipeline r1 data = fullPipeline r2 data := by
  have he : mineAssociationRules r1 data = mineAssociationRules r2 data := by
    unfold mineAssociationRules
    rw [assocFold_rand_free data r1 r2 (assocPairs data) ([], 0) h]
  unfold fullPipeline
  rw [he]

/-- Eight posts of one pair spanning two weeks, for the C6 witness. -/
def c6Good : List Post :=
  (List.range 8).map (fun i =>
    ⟨"s" ++ toString i, "Twitter", "z" ++ toString i, "", "abc", "t",
     30, 0, 0, "positive", if i < 4 then 0 else 604800000, "India"⟩)

/-- Concrete input for the C6 witness. -/
theorem c6_pipeline_deterministic_witness :
    fullPipeline (fun _ => 0) c6Good = fullPipeline (fun _ => (1 : ℚ)/3) c6Good :=
  c6_pipeline_deterministic c6Good (fun _ => 0) (fun _ => (1 : ℚ)/3)
    (by unfold noFallback; with_unfolding_all decide)

end DWM
